import Mathlib

/-
  Verification of the connectivity core of pcb_reverse.py.

  The Python source is shallowly embedded over Lean strings.  Identifiers and
  pin labels in the tool are ASCII tokens; the CPython character predicates
  str.isalpha, str.isdigit, str.upper and str.strip are modelled by their
  ASCII semantics on Lean chars (Python code points and Lean chars agree on
  this alphabet, and string comparison is code-point lexicographic in both).
-/

namespace PCB

/-- ASCII lowercase test, the CPython islower range a..z. -/
def asciiLower (c : Char) : Bool := decide (97 ≤ c.toNat) && decide (c.toNat ≤ 122)

/-- ASCII uppercase test, the CPython isupper range A..Z. -/
def asciiUpper (c : Char) : Bool := decide (65 ≤ c.toNat) && decide (c.toNat ≤ 90)

/-- Model of CPython str.isalpha on the ASCII alphabet. -/
def pyIsAlpha (c : Char) : Bool := asciiUpper c || asciiLower c

/-- Model of CPython str.isdigit on the ASCII alphabet, the range 0..9. -/
def pyIsDigit (c : Char) : Bool := decide (48 ≤ c.toNat) && decide (c.toNat ≤ 57)

/-- Model of the CPython whitespace class stripped by str.strip. -/
def pySpace (c : Char) : Bool :=
  decide (c.toNat = 32) || decide (c.toNat = 9) || decide (c.toNat = 10) ||
  decide (c.toNat = 13) || decide (c.toNat = 11) || decide (c.toNat = 12)

/-- Model of CPython str.upper on one ASCII char: shift a..z down by 32. -/
def upChar (c : Char) : Char :=
  if asciiLower c then Char.ofNat (c.toNat - 32) else c

/-- Model of str.upper over a whole string (as a char list). -/
def upStr (l : List Char) : List Char := l.map upChar

/-- Model of str.strip: drop whitespace from both ends. -/
def stripStr (l : List Char) : List Char :=
  (((l.dropWhile pySpace).reverse).dropWhile pySpace).reverse

/-- The composite tok.upper().strip() applied by the tool to raw tokens. -/
def canonTok (l : List Char) : List Char := stripStr (upStr l)

/-- Value of an all-digit string, as computed by Python int(). -/
def digitsVal (l : List Char) : Nat := l.foldl (fun a c => 10 * a + (c.toNat - 48)) 0

/-- Rendering of a natural below ten in the 02d format: a leading zero and one digit. -/
def pad2 (n : Nat) : List Char := ['0', Char.ofNat (48 + n)]

/-- Body of PCBProject.normalize_ref after the initial upper and strip
(src/pcb_reverse.py:284-290).  The local named num_str in the source holds the
digit characters of the token and the local named num its integer value; the
alphabetic characters form the leading part of the padded result.  When both
character classes are present and the value is below ten, the result is the
alphabetic part followed by the two-digit zero-padded value; otherwise the
token is returned unchanged. -/
def normPad (r : List Char) : List Char :=
  if r.filter pyIsAlpha ≠ [] ∧ r.filter pyIsDigit ≠ [] then
    if digitsVal (r.filter pyIsDigit) < 10 then
      r.filter pyIsAlpha ++ pad2 (digitsVal (r.filter pyIsDigit))
    else r
  else r

/-- Embedding of PCBProject.normalize_ref (src/pcb_reverse.py:281): uppercase
and strip the raw token, then apply the padding rule. -/
def normalize_ref (s : String) : String := String.mk (normPad (canonTok s.data))

/-! Python string comparison, used by tuple(sorted(...)) on connection pairs,
is code-point lexicographic; strLt embeds it. -/

/-- Code-point lexicographic strict order on char lists. -/
def strLtData : List Char → List Char → Bool
  | [], [] => false
  | [], _ :: _ => true
  | _ :: _, [] => false
  | c :: cs, d :: ds =>
    if c.toNat < d.toNat then true
    else if d.toNat < c.toNat then false
    else strLtData cs ds

/-- Code-point lexicographic strict order on strings, the Python str order. -/
def strLt (a b : String) : Bool := strLtData a.data b.data

/-- The canonical stored form of a pair, tuple(sorted([a, b])) in the source. -/
def sortPair (a b : String) : String × String := if strLt b a then (b, a) else (a, b)

/-! The data model.  A component record keeps the fields the connectivity core
reads: the pin count and the value string.  Value strings are produced by the
value-formatting collaborator (smart_format_value), which is outside the core
per spec sections 1 and 6; on the only in-core call path (auto-add from
add_connection) the value argument is the literal "?" on which
smart_format_value is the identity, so values are stored as passed. -/

/-- The modelled fields of one entry of PCBProject.components. -/
structure Component where
  pins : Nat
  value : String
deriving DecidableEq, Repr

/-- The modelled PCBProject session state: the component table, the connection
set (a list of canonical pairs with set semantics) and the net-name registry. -/
structure St where
  components : List (String × Component)
  connections : List (String × String)
  net_names : List (String × String)
deriving DecidableEq, Repr

/-- Dict lookup on an association list. -/
def alookup {β : Type} (l : List (String × β)) (k : String) : Option β :=
  match l with
  | [] => none
  | (k2, v) :: t => if k2 = k then some v else alookup t k

/-- Dict assignment: update the existing key or append a new binding. -/
def aset {β : Type} (l : List (String × β)) (k : String) (v : β) : List (String × β) :=
  match l with
  | [] => [(k, v)]
  | (k2, v2) :: t => if k2 = k then (k2, v) :: t else (k2, v2) :: aset t k v

/-- Dict deletion by key. -/
def aremove {β : Type} (l : List (String × β)) (k : String) : List (String × β) :=
  l.filter (fun e => e.1 ≠ k)

/-- The single-pin test used throughout parse_pin: the token is a registered
component whose pins field equals one. -/
def isSingle (comps : List (String × Component)) (r : String) : Bool :=
  match alookup comps r with
  | some c => c.pins == 1
  | none => false

/-- Embedding of PCBProject.parse_pin (src/pcb_reverse.py:550).  The token is
uppercased and stripped; a raw single-pin component name parses to the bare
form; otherwise the first separator among the dash, the dot and the underscore
splits the token once into a normalized ref and a stripped label (with TAB kept
literal); a separator-free token parses only as a normalized single-pin ref. -/
def parse_pin (comps : List (String × Component)) (pin_str : String) :
    Option (String × Option String) :=
  let t := String.mk (canonTok pin_str.data)
  if isSingle comps t then some (t, none)
  else
    let sep? : Option Char :=
      if t.data.contains '-' then some '-'
      else if t.data.contains '.' then some '.'
      else if t.data.contains '_' then some '_'
      else none
    match sep? with
    | some sp =>
      let r0 := t.data.takeWhile (fun c => c != sp)
      let rest := (t.data.dropWhile (fun c => c != sp)).drop 1
      let ref := normalize_ref (String.mk r0)
      let lab0 := String.mk (stripStr rest)
      let lab := if String.mk (upStr lab0.data) = "TAB" then "TAB" else lab0
      if isSingle comps ref then some (ref, none) else some (ref, some lab)
    | none =>
      let nr := normalize_ref t
      if isSingle comps nr then some (nr, none) else none

/-- Embedding of PCBProject.format_pin (src/pcb_reverse.py:579): bare ref for
single-pin parses, ref-label otherwise. -/
def format_pin : String × Option String → String
  | (r, none) => r
  | (r, some l) => r ++ "-" ++ l

/-- Embedding of get_component_type (src/pcb_reverse.py:160): classify by the
uppercased alphabetic characters of the ref. -/
def get_component_type (ref : String) : String :=
  let p := String.mk (upStr (ref.data.filter pyIsAlpha))
  if p = "R" then "resistor"
  else if p = "C" then "capacitor"
  else if p = "L" then "inductor"
  else if p = "D" then "diode"
  else if p = "Q" then "transistor"
  else if p = "U" then "ic"
  else if p = "J" then "connector"
  else if p = "T" then "transformer"
  else if p = "F" then "fuse"
  else if p = "SW" then "switch"
  else if p = "LED" then "led"
  else if p = "TP" then "testpoint"
  else "other"

/-- Embedding of get_default_pins (src/pcb_reverse.py:182). -/
def get_default_pins (ref : String) : Nat :=
  let t := get_component_type ref
  if t = "resistor" then 2
  else if t = "capacitor" then 2
  else if t = "inductor" then 2
  else if t = "diode" then 2
  else if t = "led" then 2
  else if t = "fuse" then 2
  else if t = "transistor" then 3
  else if t = "testpoint" then 1
  else 2

/-- Embedding of PCBProject.add_component (src/pcb_reverse.py:292) restricted
to the modelled fields: normalize the ref, default the pin count by component
type, store the record. -/
def add_component (comps : List (String × Component)) (ref : String) (pins? : Option Nat)
    (value : String) : List (String × Component) :=
  let r := normalize_ref ref
  let p := match pins? with
    | some p => p
    | none => get_default_pins r
  aset comps r ⟨p, value⟩

/-- The auto-add step of add_connection: register an unknown ref with default
pin count and the placeholder value. -/
def autoAdd (comps : List (String × Component)) (r : String) : List (String × Component) :=
  match alookup comps r with
  | some _ => comps
  | none => add_component comps r none "?"

/-- Embedding of PCBProject.add_connection (src/pcb_reverse.py:588): parse both
pins, auto-add unknown refs, canonicalize the pair, reject a duplicate,
otherwise insert. -/
def add_connection (st : St) (pin1 pin2 : String) : Bool × St :=
  match parse_pin st.components pin1, parse_pin st.components pin2 with
  | some p1, some p2 =>
    let comps := autoAdd (autoAdd st.components p1.1) p2.1
    let conn := sortPair (format_pin p1) (format_pin p2)
    if conn ∈ st.connections then (false, ⟨comps, st.connections, st.net_names⟩)
    else (true, ⟨comps, st.connections ++ [conn], st.net_names⟩)
  | _, _ => (false, st)

/-- Alias spellings of a parsed pin tried by delete_connection: a single-pin
parse is also looked up under its explicit ref-1 spelling. -/
def altForms (p : String × Option String) : List String :=
  match p.2 with
  | none => [format_pin p, p.1 ++ "-1"]
  | some _ => [format_pin p]

/-- Embedding of PCBProject.delete_connection (src/pcb_reverse.py:618): remove
the exact canonical pair when present, otherwise retry every combination of
the alias spellings of the two endpoints in order. -/
def delete_connection (st : St) (pin1 pin2 : String) : Bool × St :=
  match parse_pin st.components pin1, parse_pin st.components pin2 with
  | some p1, some p2 =>
    let conn := sortPair (format_pin p1) (format_pin p2)
    if conn ∈ st.connections then
      (true, ⟨st.components, st.connections.filter (fun c => c ≠ conn), st.net_names⟩)
    else
      let combos := (altForms p1).flatMap (fun a => (altForms p2).map (fun b => sortPair a b))
      match combos.find? (fun c => decide (c ∈ st.connections)) with
      | some c => (true, ⟨st.components, st.connections.filter (fun x => x ≠ c), st.net_names⟩)
      | none => (false, st)
  | _, _ => (false, st)

/-- Scan test of merge_pins and delete_pin_connections: the pair references the
pin (or, for a single-pin parse, its ref-1 alias). -/
def matchesFrom (fs al : String) (single : Bool) (c : String × String) : Bool :=
  c.1 = fs ∨ c.2 = fs ∨ (single ∧ (c.1 = al ∨ c.2 = al))

/-- Endpoint replacement of the rewrite loop of merge_pins: an endpoint equal
to the source pin or to its ref-1 spelling becomes the target pin.  The ref-1
alias test here is unguarded in the source: it applies whether or not the
source pin is single-pin. -/
def repPin (fs al ts x : String) : String := if x = fs ∨ x = al then ts else x

/-- One iteration of the rewrite loop of merge_pins: drop the matched pair,
replace both endpoints, re-sort, and insert the result unless it is a
self-loop or already present; count successful inserts. -/
def mergeStep (fs al ts : String) (acc : Nat × List (String × String)) (c : String × String) :
    Nat × List (String × String) :=
  let conns := acc.2.filter (fun x => x ≠ c)
  let nc := sortPair (repPin fs al ts c.1) (repPin fs al ts c.2)
  if nc.1 ≠ nc.2 then
    if nc ∈ conns then (acc.1, conns) else (acc.1 + 1, conns ++ [nc])
  else (acc.1, conns)

/-- Embedding of PCBProject.merge_pins (src/pcb_reverse.py:657).  The middle
component of the result is the count the source prints. -/
def merge_pins (st : St) (from_pin to_pin : String) : Bool × Nat × St :=
  match parse_pin st.components from_pin, parse_pin st.components to_pin with
  | some pf, some pt =>
    let fs := format_pin pf
    let ts := format_pin pt
    let al := pf.1 ++ "-1"
    let toUpdate := st.connections.filter (matchesFrom fs al pf.2.isNone)
    if toUpdate = [] then (false, 0, st)
    else
      let res := toUpdate.foldl (mergeStep fs al ts) (0, st.connections)
      (true, res.1, ⟨st.components, res.2, st.net_names⟩)
  | _, _ => (false, 0, st)

/-- Embedding of PCBProject.delete_pin_connections (src/pcb_reverse.py:701). -/
def delete_pin_connections (st : St) (pin : String) : Bool × St :=
  match parse_pin st.components pin with
  | some p =>
    let ps := format_pin p
    let al := p.1 ++ "-1"
    let toRemove := st.connections.filter (matchesFrom ps al p.2.isNone)
    if toRemove = [] then (false, st)
    else
      (true, ⟨st.components,
        st.connections.filter (fun c => !(matchesFrom ps al p.2.isNone c)), st.net_names⟩)
  | none => (false, st)

/-- Prefix test of delete_component, the Python startswith. -/
def leadsData : List Char → List Char → Bool
  | _, [] => true
  | [], _ :: _ => false
  | c :: cs, d :: ds => c == d && leadsData cs ds

/-- String-level startswith: the second argument leads the first. -/
def leadsWith (s w : String) : Bool := leadsData s.data w.data

/-- Embedding of PCBProject.delete_component (src/pcb_reverse.py:447): drop the
component and every pair having an endpoint that starts with ref and a dash. -/
def delete_component (st : St) (ref : String) : Bool × St :=
  let r := normalize_ref ref
  match alookup st.components r with
  | none => (false, st)
  | some _ =>
    (true, ⟨aremove st.components r,
      st.connections.filter
        (fun c => !(leadsWith c.1 (r ++ "-") || leadsWith c.2 (r ++ "-"))),
      st.net_names⟩)

/-- Embedding of the pins branch of PCBProject.edit_component
(src/pcb_reverse.py:430): overwrite the pins field of a present component. -/
def edit_component_pins (st : St) (ref : String) (n : Nat) : Bool × St :=
  let r := normalize_ref ref
  match alookup st.components r with
  | none => (false, st)
  | some c => (true, ⟨aset st.components r ⟨n, c.value⟩, st.connections, st.net_names⟩)

/-- Session states reachable from an empty project through the modelled
commands: component add, pin-count edit, component delete, and the four
Connection Store mutators.  The value argument of a component add stands for
whatever string the out-of-scope value formatter produced. -/
inductive Reachable : St → Prop
  | init : Reachable ⟨[], [], []⟩
  | addComp (s : St) (r : String) (pins? : Option Nat) (v : String) :
      Reachable s → Reachable ⟨add_component s.components r pins? v, s.connections, s.net_names⟩
  | editPins (s : St) (r : String) (n : Nat) :
      Reachable s → Reachable (edit_component_pins s r n).2
  | delComp (s : St) (r : String) : Reachable s → Reachable (delete_component s r).2
  | addConn (s : St) (a b : String) : Reachable s → Reachable (add_connection s a b).2
  | delConn (s : St) (a b : String) : Reachable s → Reachable (delete_connection s a b).2
  | mergeP (s : St) (a b : String) : Reachable s → Reachable (merge_pins s a b).2.2
  | delPin (s : St) (a : String) : Reachable s → Reachable (delete_pin_connections s a).2

/-- Every stored pair is in canonical sorted order. -/
def SortedConns (l : List (String × String)) : Prop := ∀ c ∈ l, strLt c.2 c.1 = false

/-- No stored pair is a self-loop. -/
def SelfLoopFree (l : List (String × String)) : Prop := ∀ c ∈ l, c.1 ≠ c.2

/-! The Net Builder (src/pcb_reverse.py:758).  The source builds nets with a
recursive path-compressing find over a lazily initialized parent dict.  The
recursion is embedded with explicit fuel; every call site passes one more than
the size of the parent map, which the acyclicity invariant proves sufficient,
so the fuel-exhausted branch is never taken on the states the program
produces. -/

/-- The union-find parent map, a dict from pins to parent pins. -/
abbrev Parent := List (String × String)

/-- Embedding of the inner find of build_nets (src/pcb_reverse.py:762): insert
a missing key as its own parent, return a self-parent as the root, otherwise
recurse on the parent and compress the link to point at the root found. -/
def findAux : Nat → Parent → String → String × Parent
  | 0, p, x => (x, p)
  | Nat.succ fuel, p, x =>
    match alookup p x with
    | none => (x, aset p x x)
    | some px =>
      if px = x then (x, p)
      else
        let res := findAux fuel p px
        (res.1, aset res.2 x res.1)

/-- The find call as issued by build_nets, with fuel covering the whole map. -/
def find (p : Parent) (x : String) : String × Parent := findAux (p.length + 1) p x

/-- Embedding of the inner union of build_nets (src/pcb_reverse.py:769): find
both roots in sequence and point the first at the second when they differ. -/
def unionUF (p : Parent) (x y : String) : Parent :=
  let q1 := find p x
  let q2 := find q1.2 y
  if q1.1 ≠ q2.1 then aset q2.2 q1.1 q2.1 else q2.2

/-- The nets defaultdict update nets[root].add(pin): extend the member set of
an existing root key, or open a new group. -/
def netsAdd (nets : List (String × List String)) (root pin : String) :
    List (String × List String) :=
  match nets with
  | [] => [(root, [pin])]
  | (k, ms) :: t =>
    if k = root then (k, if pin ∈ ms then ms else ms ++ [pin]) :: t
    else (k, ms) :: netsAdd t root pin

/-- One pin of the grouping loop of build_nets: resolve the root (the find keeps
compressing state) and add the pin under it. -/
def groupStep (acc : Parent × List (String × List String)) (pin : String) :
    Parent × List (String × List String) :=
  let res := find acc.1 pin
  (res.2, netsAdd acc.2 res.1 pin)

/-- Embedding of PCBProject.build_nets (src/pcb_reverse.py:758): union the two
endpoints of every stored pair, then group every endpoint under its resolved
root. -/
def build_nets (conns : List (String × String)) : List (String × List String) :=
  let P := conns.foldl (fun p c => unionUF p c.1 c.2) ([] : Parent)
  (conns.foldl (fun acc c => groupStep (groupStep acc c.1) c.2) (P, [])).2

/-- The multiset of endpoints of the stored pairs. -/
def endpoints (conns : List (String × String)) : List String :=
  conns.flatMap (fun c => [c.1, c.2])

/-- Proper parent step of the union-find forest: the stored parent when it is
neither missing nor a self-link. -/
def prSt (p : Parent) (z : String) : Option String :=
  match alookup p z with
  | none => none
  | some y => if y = z then none else some y

/-- Chains of proper parent steps of measured length ending at a root. -/
inductive ReachN (p : Parent) : Nat → String → String → Prop
  | root (x : String) : prSt p x = none → ReachN p 0 x x
  | step (x y r : String) (n : Nat) :
      prSt p x = some y → ReachN p n y r → ReachN p (n + 1) x r

/-- The pin resolves to the given root through the forest. -/
def Reach (p : Parent) (x r : String) : Prop := ∃ n, ReachN p n x r

/-- Acyclicity witness: a potential strictly decreasing along proper steps. -/
def InvD (p : Parent) (d : String → Nat) : Prop :=
  ∀ z y, prSt p z = some y → d y < d z

/-- Membership of a pin under a root key somewhere in the grouped nets. -/
def entryMem (nets : List (String × List String)) (root pin : String) : Prop :=
  ∃ ms, (root, ms) ∈ nets ∧ pin ∈ ms

/-- The root keys of the grouped nets are pairwise distinct, as dict keys are. -/
def KeysNodup (nets : List (String × List String)) : Prop := (nets.map Prod.fst).Nodup

/-- Embedding of PCBProject.name_net (src/pcb_reverse.py:785): parse the pin,
rebuild the nets, and look for the string ref-label among the members; for a
single-pin parse the label is Python None, which the f-string renders as the
four characters None.  Store the name under the root key of the first matching
net, else report failure and leave the registry unchanged. -/
def name_net (st : St) (pin nm : String) : Bool × St :=
  match parse_pin st.components pin with
  | none => (false, st)
  | some p =>
    let nets := build_nets st.connections
    let pin_str := p.1 ++ "-" ++ (match p.2 with | some l => l | none => "None")
    match nets.find? (fun e => decide (pin_str ∈ e.2)) with
    | some e => (true, ⟨st.components, st.connections, aset st.net_names e.1 nm⟩)
    | none => (false, st)

/-- Insertion step of the key sort applied to components.items(). -/
def insKey (x : String × Component) :
    List (String × Component) → List (String × Component)
  | [] => [x]
  | y :: ys => if strLt y.1 x.1 then y :: insKey x ys else x :: y :: ys

/-- The Python sorted(self.components.items()): ascending by ref (keys are
distinct, so the comparison never reaches the second tuple slot). -/
def sortByKey (l : List (String × Component)) : List (String × Component) :=
  l.foldr insKey []

/-- The optional ref filter of get_remaining_pins: an absent or empty filter
passes everything, otherwise the ref must start with the uppercased filter. -/
def passFilter (filt : Option String) (ref : String) : Bool :=
  match filt with
  | none => true
  | some f => if f.data = [] then true else leadsWith ref (String.mk (upStr f.data))

/-- Embedding of PCBProject.get_remaining_pins (src/pcb_reverse.py:941): for
every component with more than one pin passing the filter, in ref order, list
the numbered pins whose compound form is no endpoint of any stored pair. -/
def get_remaining_pins (st : St) (filt : Option String) : List (String × Nat × String) :=
  let connected := endpoints st.connections
  (sortByKey st.components).flatMap (fun e =>
    if e.2.pins ≤ 1 then []
    else if !(passFilter filt e.1) then []
    else (List.range' 1 e.2.pins).filterMap (fun n =>
      if (e.1 ++ "-" ++ toString n) ∈ connected then none else some (e.1, n, e.2.value)))

/-! Analysis of the merge_pins rewrite loop, used to settle its contract. -/

/-- The pair is a rewrite of a stored pair referencing the source pin. -/
def IsRewriteOf (fs al ts : String) (single : Bool) (pre : List (String × String))
    (x : String × String) : Prop :=
  ∃ c0, c0 ∈ pre ∧ matchesFrom fs al single c0 = true ∧
    x = sortPair (repPin fs al ts c0.1) (repPin fs al ts c0.2)

/-- The contract of merge_pins established below: the source pin disappears
when the target differs from it, unmatched pairs survive, every stored pair
afterwards is an untouched original or a non-self-loop rewrite, and the count
accounts exactly for the pairs inserted. -/
def MergeOutcome (st : St) (pf pt : String × Option String) (out : Bool × Nat × St) : Prop :=
  (format_pin pt ≠ format_pin pf →
    ∀ c ∈ out.2.2.connections, c.1 ≠ format_pin pf ∧ c.2 ≠ format_pin pf) ∧
  (∀ c ∈ st.connections,
    matchesFrom (format_pin pf) (pf.1 ++ "-1") pf.2.isNone c = false →
    c ∈ out.2.2.connections) ∧
  (∀ c ∈ out.2.2.connections,
    (c ∈ st.connections ∧ matchesFrom (format_pin pf) (pf.1 ++ "-1") pf.2.isNone c = false) ∨
    (IsRewriteOf (format_pin pf) (pf.1 ++ "-1") (format_pin pt) pf.2.isNone st.connections c
      ∧ c.1 ≠ c.2)) ∧
  (st.connections.Nodup →
    out.2.2.connections.length +
      (st.connections.filter (matchesFrom (format_pin pf) (pf.1 ++ "-1") pf.2.isNone)).length
      = st.connections.length + out.2.1)


/-- Concrete session: two pairs A-1~B-1 and B-1~C-1 recorded from an empty
project. -/
def c3_st2 : St := (add_connection (add_connection ⟨[], [], []⟩ "A-1" "B-1").2 "B-1" "C-1").2

/-- The session c3_st2 after removing the pair A-1~B-1. -/
def c3_st3 : St := (delete_connection c3_st2 "A-1" "B-1").2

/-- Concrete session: a single-pin GND component connected to R01-1. -/
def c4_st : St := (add_connection ⟨add_component [] "GND" (some 1) "?", [], []⟩ "GND" "R1-1").2

/-- Concrete session: the pair R01-1~R01-2 on a two-pin resistor. -/
def c5_st : St := (add_connection ⟨[], [], []⟩ "R1-1" "R1-2").2

/-- Concrete session: a three-pin transistor with only pin 1 connected. -/
def c7_st : St := (add_connection ⟨add_component [] "Q1" none "?", [], []⟩ "Q1-1" "R1-1").2

/-- Concrete session built through the modelled commands: GND added with two
pins, GND-2 wired to X-1, GND edited down to one pin, then X-1 merged into the
now bare GND, leaving the mixed pair (GND, GND-2) in the store. -/
def c9_st : St := (merge_pins (edit_component_pins
  (add_connection ⟨add_component [] "GND" (some 2) "?", [], []⟩ "GND-2" "X-1").2 "GND" 1).2
  "X-1" "GND").2.2

/-- Concrete session: a two-pin resistor R01 and nothing else. -/
def c10_st : St := ⟨add_component [] "R1" none "?", [], []⟩

/-- The Connection Store shape guaranteed on reachable states: stored pairs are
never permutations of one another, the delete operations and merge_pins never
introduce a self-loop, and add_connection introduces one exactly when its two
arguments resolve to the same canonical pin string. -/
def StoreInvariant (s : St) : Prop :=
  (∀ a b : String, (a, b) ∈ s.connections → (b, a) ∈ s.connections → a = b) ∧
  (∀ x y : String, SelfLoopFree s.connections →
    SelfLoopFree (merge_pins s x y).2.2.connections) ∧
  (∀ x y : String, SelfLoopFree s.connections →
    SelfLoopFree (delete_connection s x y).2.connections) ∧
  (∀ x : String, SelfLoopFree s.connections →
    SelfLoopFree (delete_pin_connections s x).2.connections) ∧
  (∀ (x y : String) (p1 p2 : String × Option String),
    parse_pin s.components x = some p1 → parse_pin s.components y = some p2 →
    format_pin p1 ≠ format_pin p2 → SelfLoopFree s.connections →
    SelfLoopFree (add_connection s x y).2.connections) ∧
  (∀ (x y : String) (p1 p2 : String × Option String),
    parse_pin s.components x = some p1 → parse_pin s.components y = some p2 →
    format_pin p1 = format_pin p2 → (format_pin p1, format_pin p1) ∉ s.connections →
    (format_pin p1, format_pin p1) ∈ (add_connection s x y).2.connections)

/-- The naming behavior of name_net: a compound-labelled pin names the net
holding its ref-label form exactly when that form is an endpoint, the name
landing under the root key of its net; a single-pin (bare) pin looks up the
string ref-None, so it fails with the registry unchanged whenever no such
endpoint exists. -/
def NameNetContract (st : St) (pin nm : String) : Prop :=
  (∀ r lab : String, parse_pin st.components pin = some (r, some lab) →
    ((r ++ "-" ++ lab ∈ endpoints st.connections →
      ∃ root ms, (root, ms) ∈ build_nets st.connections ∧ r ++ "-" ++ lab ∈ ms ∧
        name_net st pin nm
          = (true, ⟨st.components, st.connections, aset st.net_names root nm⟩)) ∧
    (r ++ "-" ++ lab ∉ endpoints st.connections →
      name_net st pin nm = (false, st)))) ∧
  (∀ r : String, parse_pin st.components pin = some (r, none) →
    r ++ "-None" ∉ endpoints st.connections → name_net st pin nm = (false, st))

/-- The deletion behavior of delete_component on the Connection Store: exactly
the pairs with an endpoint starting with ref and a dash are removed, so a pair
touching the component only through its bare ref survives. -/
def DeleteComponentContract (st : St) (ref : String) : Prop :=
  ∀ comp : Component, alookup st.components (normalize_ref ref) = some comp →
    (∀ c : String × String, c ∈ st.connections →
      (c ∈ (delete_component st ref).2.connections ↔
        leadsWith c.1 (normalize_ref ref ++ "-") = false ∧
        leadsWith c.2 (normalize_ref ref ++ "-") = false)) ∧
    (∀ c : String × String, c ∈ st.connections → c.1 = normalize_ref ref →
      leadsWith c.2 (normalize_ref ref ++ "-") = false →
      c ∈ (delete_component st ref).2.connections) ∧
    (∀ c : String × String, c ∈ st.connections → c.2 = normalize_ref ref →
      leadsWith c.1 (normalize_ref ref ++ "-") = false →
      c ∈ (delete_component st ref).2.connections)

theorem char_toNat_inj {a b : Char} (h : a.toNat = b.toNat) : a = b := by
  apply Char.ext
  apply UInt32.ext
  exact h

theorem toNat_ofNat_small {n : Nat} (h : n < 0xd800) : (Char.ofNat n).toNat = n := by
  unfold Char.ofNat
  rw [dif_pos (Or.inl h)]
  rfl

theorem asciiLower_iff {c : Char} : asciiLower c = true ↔ 97 ≤ c.toNat ∧ c.toNat ≤ 122 := by
  simp [asciiLower]

theorem pyIsAlpha_iff {c : Char} :
    pyIsAlpha c = true ↔ (65 ≤ c.toNat ∧ c.toNat ≤ 90) ∨ (97 ≤ c.toNat ∧ c.toNat ≤ 122) := by
  simp [pyIsAlpha, asciiUpper, asciiLower]

theorem pyIsDigit_iff {c : Char} : pyIsDigit c = true ↔ 48 ≤ c.toNat ∧ c.toNat ≤ 57 := by
  simp [pyIsDigit]

theorem pySpace_iff {c : Char} :
    pySpace c = true ↔ c.toNat = 32 ∨ c.toNat = 9 ∨ c.toNat = 10 ∨ c.toNat = 13 ∨
      c.toNat = 11 ∨ c.toNat = 12 := by
  simp [pySpace]
  tauto

theorem upChar_toNat (c : Char) :
    (upChar c).toNat = if asciiLower c then c.toNat - 32 else c.toNat := by
  unfold upChar
  by_cases h : asciiLower c = true
  · obtain ⟨h1, h2⟩ := asciiLower_iff.mp h
    rw [if_pos h, if_pos h, toNat_ofNat_small (by omega)]
  · rw [if_neg h, if_neg h]

theorem upChar_fix {c : Char} (h : asciiLower c = false) : upChar c = c := by
  unfold upChar
  rw [h]
  simp

theorem asciiLower_upChar (c : Char) : asciiLower (upChar c) = false := by
  have ht := upChar_toNat c
  rw [Bool.eq_false_iff]
  intro hcon
  rw [asciiLower_iff] at hcon
  by_cases h : asciiLower c = true
  · obtain ⟨h1, h2⟩ := asciiLower_iff.mp h
    rw [if_pos h] at ht
    omega
  · rw [if_neg h] at ht
    have h2 : ¬(97 ≤ c.toNat ∧ c.toNat ≤ 122) := fun hh => h (asciiLower_iff.mpr hh)
    omega

theorem upChar_idem (c : Char) : upChar (upChar c) = upChar c :=
  upChar_fix (asciiLower_upChar c)

theorem pyIsAlpha_upChar (c : Char) : pyIsAlpha (upChar c) = pyIsAlpha c := by
  have ht := upChar_toNat c
  by_cases h : asciiLower c = true
  · obtain ⟨h1, h2⟩ := asciiLower_iff.mp h
    rw [if_pos h] at ht
    have e1 : pyIsAlpha (upChar c) = true := pyIsAlpha_iff.mpr (Or.inl (by omega))
    have e2 : pyIsAlpha c = true := pyIsAlpha_iff.mpr (Or.inr (by omega))
    rw [e1, e2]
  · rw [upChar_fix (Bool.eq_false_iff.mpr h)]

theorem pyIsDigit_upChar (c : Char) : pyIsDigit (upChar c) = pyIsDigit c := by
  have ht := upChar_toNat c
  by_cases h : asciiLower c = true
  · obtain ⟨h1, h2⟩ := asciiLower_iff.mp h
    rw [if_pos h] at ht
    have e1 : pyIsDigit (upChar c) = false := by
      rw [Bool.eq_false_iff]
      intro hh
      rw [pyIsDigit_iff] at hh
      omega
    have e2 : pyIsDigit c = false := by
      rw [Bool.eq_false_iff]
      intro hh
      rw [pyIsDigit_iff] at hh
      omega
    rw [e1, e2]
  · rw [upChar_fix (Bool.eq_false_iff.mpr h)]

theorem pySpace_upChar (c : Char) : pySpace (upChar c) = pySpace c := by
  have ht := upChar_toNat c
  by_cases h : asciiLower c = true
  · obtain ⟨h1, h2⟩ := asciiLower_iff.mp h
    rw [if_pos h] at ht
    have e1 : pySpace (upChar c) = false := by
      rw [Bool.eq_false_iff]
      intro hh
      rw [pySpace_iff] at hh
      omega
    have e2 : pySpace c = false := by
      rw [Bool.eq_false_iff]
      intro hh
      rw [pySpace_iff] at hh
      omega
    rw [e1, e2]
  · rw [upChar_fix (Bool.eq_false_iff.mpr h)]

theorem pyIsAlpha_not_space {c : Char} (h : pyIsAlpha c = true) : pySpace c = false := by
  rw [pyIsAlpha_iff] at h
  rw [Bool.eq_false_iff]
  intro hh
  rw [pySpace_iff] at hh
  omega

theorem pyIsDigit_not_space {c : Char} (h : pyIsDigit c = true) : pySpace c = false := by
  rw [pyIsDigit_iff] at h
  rw [Bool.eq_false_iff]
  intro hh
  rw [pySpace_iff] at hh
  omega

theorem pyIsDigit_not_alpha {c : Char} (h : pyIsDigit c = true) : pyIsAlpha c = false := by
  rw [pyIsDigit_iff] at h
  rw [Bool.eq_false_iff]
  intro hh
  rw [pyIsAlpha_iff] at hh
  omega

theorem pyIsAlpha_not_digit {c : Char} (h : pyIsAlpha c = true) : pyIsDigit c = false := by
  rw [pyIsAlpha_iff] at h
  rw [Bool.eq_false_iff]
  intro hh
  rw [pyIsDigit_iff] at hh
  omega

theorem upChar_digit_fix {c : Char} (h : pyIsDigit c = true) : upChar c = c := by
  apply upChar_fix
  rw [pyIsDigit_iff] at h
  rw [Bool.eq_false_iff]
  intro hh
  rw [asciiLower_iff] at hh
  omega

theorem dropWhile_head_false {p : Char → Bool} {l t : List Char} {c : Char}
    (h : l.dropWhile p = c :: t) : p c = false := by
  induction l with
  | nil => cases h
  | cons x xs ih =>
    rw [List.dropWhile_cons] at h
    by_cases hx : p x = true
    · rw [if_pos hx] at h
      exact ih h
    · rw [if_neg hx] at h
      cases h
      exact Bool.eq_false_iff.mpr hx

theorem dropWhile_all_false {p : Char → Bool} {l : List Char}
    (h : ∀ c ∈ l, p c = false) : l.dropWhile p = l := by
  cases l with
  | nil => rfl
  | cons x xs =>
    rw [List.dropWhile_cons, if_neg]
    rw [h x (List.mem_cons_self x xs)]
    simp

theorem dropWhile_self_of_head {p : Char → Bool} {l : List Char}
    (h : ∀ c t, l = c :: t → p c = false) : l.dropWhile p = l := by
  cases l with
  | nil => rfl
  | cons x xs =>
    rw [List.dropWhile_cons, if_neg]
    rw [h x xs rfl]
    simp

theorem stripStr_subset {l : List Char} : stripStr l ⊆ l := by
  unfold stripStr
  intro x hx
  rw [List.mem_reverse] at hx
  have h1 := (List.dropWhile_sublist pySpace).subset hx
  rw [List.mem_reverse] at h1
  exact (List.dropWhile_sublist pySpace).subset h1

theorem stripStr_all_false {l : List Char} (h : ∀ c ∈ l, pySpace c = false) :
    stripStr l = l := by
  unfold stripStr
  rw [dropWhile_all_false h, dropWhile_all_false, List.reverse_reverse]
  intro c hc
  rw [List.mem_reverse] at hc
  exact h c hc

theorem stripStr_idem (l : List Char) : stripStr (stripStr l) = stripStr l := by
  obtain ⟨D, hD⟩ : ∃ D, l.dropWhile pySpace = D := ⟨_, rfl⟩
  obtain ⟨M, hM⟩ : ∃ M, D.reverse.dropWhile pySpace = M := ⟨_, rfl⟩
  have hS : stripStr l = M.reverse := by
    unfold stripStr
    rw [hD, hM]
  have hDapp : D = M.reverse ++ (D.reverse.takeWhile pySpace).reverse := by
    have h1 := List.takeWhile_append_dropWhile pySpace D.reverse
    rw [hM] at h1
    have h2 := congrArg List.reverse h1
    rw [List.reverse_append, List.reverse_reverse] at h2
    exact h2.symm
  have hfirst : M.reverse.dropWhile pySpace = M.reverse := by
    apply dropWhile_self_of_head
    intro c t hct
    have heq : l.dropWhile pySpace = c :: (t ++ (D.reverse.takeWhile pySpace).reverse) := by
      rw [hD]
      nth_rewrite 1 [hDapp]
      rw [hct]
      rfl
    exact dropWhile_head_false heq
  have hsecond : M.dropWhile pySpace = M := by
    apply dropWhile_self_of_head
    intro c t hct
    rw [hct] at hM
    exact dropWhile_head_false hM
  rw [hS]
  unfold stripStr
  rw [hfirst, List.reverse_reverse, hsecond]

theorem upStr_fix {l : List Char} (h : ∀ c ∈ l, upChar c = c) : upStr l = l := by
  induction l with
  | nil => rfl
  | cons x xs ih =>
    unfold upStr
    rw [List.map_cons, h x (List.mem_cons_self x xs)]
    have := ih (fun c hc => h c (List.mem_cons_of_mem x hc))
    unfold upStr at this
    rw [this]

theorem mem_upStr_fix {l : List Char} {x : Char} (h : x ∈ upStr l) : upChar x = x := by
  unfold upStr at h
  rw [List.mem_map] at h
  obtain ⟨c, _, hc⟩ := h
  rw [← hc]
  exact upChar_idem c

theorem canonTok_mem_fix {l : List Char} {x : Char} (h : x ∈ canonTok l) : upChar x = x :=
  mem_upStr_fix (stripStr_subset h)

theorem canonTok_idem (l : List Char) : canonTok (canonTok l) = canonTok l := by
  unfold canonTok
  rw [upStr_fix (fun c hc => mem_upStr_fix (stripStr_subset hc))]
  exact stripStr_idem (upStr l)

theorem pad2_digit {n : Nat} (h : n < 10) : ∀ c ∈ pad2 n, pyIsDigit c = true := by
  intro c hc
  unfold pad2 at hc
  simp only [List.mem_cons, List.not_mem_nil, or_false] at hc
  have hn : (Char.ofNat (48 + n)).toNat = 48 + n := toNat_ofNat_small (by omega)
  rcases hc with rfl | rfl
  · decide
  · rw [pyIsDigit_iff, hn]
    omega

theorem digitsVal_pad2 {n : Nat} (h : n < 10) : digitsVal (pad2 n) = n := by
  have hn : (Char.ofNat (48 + n)).toNat = 48 + n := toNat_ofNat_small (by omega)
  unfold digitsVal pad2
  rw [List.foldl_cons, List.foldl_cons, List.foldl_nil, hn]
  simp only [show '0'.toNat = 48 from rfl]
  omega

theorem filter_alpha_of_mix {pfx digs : List Char} (hA : ∀ c ∈ pfx, pyIsAlpha c = true)
    (hD : ∀ c ∈ digs, pyIsDigit c = true) : (pfx ++ digs).filter pyIsAlpha = pfx := by
  rw [List.filter_append]
  have e1 : pfx.filter pyIsAlpha = pfx := List.filter_eq_self.mpr hA
  have e2 : digs.filter pyIsAlpha = [] := by
    rw [List.filter_eq_nil_iff]
    intro c hc
    rw [pyIsDigit_not_alpha (hD c hc)]
    simp
  rw [e1, e2, List.append_nil]

theorem filter_digit_of_mix {pfx digs : List Char} (hA : ∀ c ∈ pfx, pyIsAlpha c = true)
    (hD : ∀ c ∈ digs, pyIsDigit c = true) : (pfx ++ digs).filter pyIsDigit = digs := by
  rw [List.filter_append]
  have e1 : pfx.filter pyIsDigit = [] := by
    rw [List.filter_eq_nil_iff]
    intro c hc
    rw [pyIsAlpha_not_digit (hA c hc)]
    simp
  have e2 : digs.filter pyIsDigit = digs := List.filter_eq_self.mpr hD
  rw [e1, e2, List.nil_append]

theorem canonTok_normPad_canonTok (x : List Char) :
    canonTok (normPad (canonTok x)) = normPad (canonTok x) := by
  unfold normPad
  by_cases h : (canonTok x).filter pyIsAlpha ≠ [] ∧ (canonTok x).filter pyIsDigit ≠ []
  · rw [if_pos h]
    by_cases h2 : digitsVal ((canonTok x).filter pyIsDigit) < 10
    · rw [if_pos h2]
      unfold canonTok
      rw [upStr_fix, stripStr_all_false]
      · intro c hc
        rcases List.mem_append.mp hc with hc | hc
        · exact pyIsAlpha_not_space (List.mem_filter.mp hc).2
        · exact pyIsDigit_not_space (pad2_digit h2 c hc)
      · intro c hc
        rcases List.mem_append.mp hc with hc | hc
        · exact canonTok_mem_fix (List.mem_filter.mp hc).1
        · exact upChar_digit_fix (pad2_digit h2 c hc)
    · rw [if_neg h2]
      exact canonTok_idem x
  · rw [if_neg h]
    exact canonTok_idem x

theorem normPad_pad_case {r : List Char}
    (h : r.filter pyIsAlpha ≠ [] ∧ r.filter pyIsDigit ≠ [])
    (h2 : digitsVal (r.filter pyIsDigit) < 10) :
    normPad r = r.filter pyIsAlpha ++ pad2 (digitsVal (r.filter pyIsDigit)) := by
  unfold normPad
  rw [if_pos h, if_pos h2]

theorem normPad_idem (r : List Char) : normPad (normPad r) = normPad r := by
  by_cases h : r.filter pyIsAlpha ≠ [] ∧ r.filter pyIsDigit ≠ []
  · by_cases h2 : digitsVal (r.filter pyIsDigit) < 10
    · have hout := normPad_pad_case h h2
      have hA : ∀ c ∈ r.filter pyIsAlpha, pyIsAlpha c = true :=
        fun c hc => (List.mem_filter.mp hc).2
      have hD := pad2_digit h2
      have hfa := filter_alpha_of_mix hA hD
      have hfd := filter_digit_of_mix hA hD
      rw [hout]
      unfold normPad
      rw [hfa, hfd, digitsVal_pad2 h2]
      rw [if_pos ⟨h.1, by simp [pad2]⟩, if_pos h2]
    · have hout : normPad r = r := by
        unfold normPad
        rw [if_pos h, if_neg h2]
      rw [hout, hout]
  · have hout : normPad r = r := by
      unfold normPad
      rw [if_neg h]
    rw [hout, hout]

theorem strLtData_irrefl : ∀ l : List Char, strLtData l l = false := by
  intro l
  induction l with
  | nil => rfl
  | cons c cs ih =>
    unfold strLtData
    rw [if_neg (by omega), if_neg (by omega)]
    exact ih

theorem strLtData_asymm : ∀ {x y : List Char}, strLtData x y = true → strLtData y x = false := by
  intro x
  induction x with
  | nil =>
    intro y h
    cases y with
    | nil => cases h
    | cons d ds => rfl
  | cons c cs ih =>
    intro y h
    cases y with
    | nil => cases h
    | cons d ds =>
      unfold strLtData at h ⊢
      by_cases h1 : c.toNat < d.toNat
      · rw [if_neg (by omega), if_pos (by omega)]
      · rw [if_neg h1] at h
        by_cases h2 : d.toNat < c.toNat
        · rw [if_pos h2] at h
          cases h
        · rw [if_neg h2] at h
          rw [if_neg (by omega), if_neg (by omega)]
          exact ih h

theorem strLtData_total : ∀ {x y : List Char}, x ≠ y →
    strLtData x y = true ∨ strLtData y x = true := by
  intro x
  induction x with
  | nil =>
    intro y h
    cases y with
    | nil => exact absurd rfl h
    | cons d ds => exact Or.inl rfl
  | cons c cs ih =>
    intro y h
    cases y with
    | nil => exact Or.inr rfl
    | cons d ds =>
      by_cases h1 : c.toNat < d.toNat
      · left
        unfold strLtData
        rw [if_pos h1]
      · by_cases h2 : d.toNat < c.toNat
        · right
          unfold strLtData
          rw [if_pos h2]
        · have hcd : c = d := char_toNat_inj (by omega)
          subst hcd
          have hne : cs ≠ ds := by
            intro hcon
            exact h (by rw [hcon])
          rcases ih hne with h3 | h3
          · left
            unfold strLtData
            rw [if_neg (by omega), if_neg (by omega)]
            exact h3
          · right
            unfold strLtData
            rw [if_neg (by omega), if_neg (by omega)]
            exact h3

theorem strLt_antisym {a b : String} (h1 : strLt a b = false) (h2 : strLt b a = false) :
    a = b := by
  by_cases h : a.data = b.data
  · cases a
    cases b
    exact congrArg String.mk h
  · rcases strLtData_total h with h3 | h3
    · rw [show strLtData a.data b.data = strLt a b from rfl, h1] at h3
      cases h3
    · rw [show strLtData b.data a.data = strLt b a from rfl, h2] at h3
      cases h3

theorem sortPair_sorted (a b : String) : strLt (sortPair a b).2 (sortPair a b).1 = false := by
  unfold sortPair
  by_cases h : strLt b a = true
  · rw [if_pos h]
    exact strLtData_asymm h
  · rw [if_neg h]
    exact Bool.eq_false_iff.mpr h

theorem sortPair_cases (a b : String) : sortPair a b = (a, b) ∨ sortPair a b = (b, a) := by
  unfold sortPair
  by_cases h : strLt b a = true
  · rw [if_pos h]
    right
    rfl
  · rw [if_neg h]
    left
    rfl

theorem sortedConns_filter {l : List (String × String)} {p : String × String → Bool}
    (h : SortedConns l) : SortedConns (l.filter p) :=
  fun c hc => h c (List.mem_filter.mp hc).1

theorem selfLoopFree_filter {l : List (String × String)} {p : String × String → Bool}
    (h : SelfLoopFree l) : SelfLoopFree (l.filter p) :=
  fun c hc => h c (List.mem_filter.mp hc).1

theorem sortedConns_snoc {l : List (String × String)} {x y : String}
    (h : SortedConns l) : SortedConns (l ++ [sortPair x y]) := by
  intro c hc
  rcases List.mem_append.mp hc with hc | hc
  · exact h c hc
  · simp only [List.mem_singleton] at hc
    rw [hc]
    exact sortPair_sorted x y

theorem mergeStep_cases (fs al ts : String) (acc : Nat × List (String × String))
    (c : String × String) :
    (mergeStep fs al ts acc c).2 = acc.2.filter (fun x => x ≠ c) ∨
    ∃ u v, (mergeStep fs al ts acc c).2 = acc.2.filter (fun x => x ≠ c) ++ [sortPair u v] ∧
      (sortPair u v).1 ≠ (sortPair u v).2 := by
  unfold mergeStep
  dsimp only
  obtain ⟨r1, hr1⟩ : ∃ r1, repPin fs al ts c.1 = r1 := ⟨_, rfl⟩
  obtain ⟨r2, hr2⟩ : ∃ r2, repPin fs al ts c.2 = r2 := ⟨_, rfl⟩
  rw [hr1, hr2]
  by_cases h1 : (sortPair r1 r2).1 ≠ (sortPair r1 r2).2
  · rw [if_pos h1]
    by_cases h2 : sortPair r1 r2 ∈ acc.2.filter (fun x => x ≠ c)
    · rw [if_pos h2]
      left
      rfl
    · rw [if_neg h2]
      right
      exact ⟨r1, r2, rfl, h1⟩
  · rw [if_neg h1]
    left
    rfl

theorem mergeStep_sorted {fs al ts : String} {acc : Nat × List (String × String)}
    {c : String × String} (h : SortedConns acc.2) :
    SortedConns (mergeStep fs al ts acc c).2 := by
  rcases mergeStep_cases fs al ts acc c with hc | ⟨u, v, hc, _⟩
  · rw [hc]
    exact sortedConns_filter h
  · rw [hc]
    exact sortedConns_snoc (sortedConns_filter h)

theorem mergeFold_sorted {fs al ts : String} :
    ∀ (L : List (String × String)) (acc : Nat × List (String × String)),
      SortedConns acc.2 → SortedConns (L.foldl (mergeStep fs al ts) acc).2 := by
  intro L
  induction L with
  | nil => intro acc h; exact h
  | cons c cs ih =>
    intro acc h
    rw [List.foldl_cons]
    exact ih _ (mergeStep_sorted h)

theorem mergeStep_slf {fs al ts : String} {acc : Nat × List (String × String)}
    {c : String × String} (h : SelfLoopFree acc.2) :
    SelfLoopFree (mergeStep fs al ts acc c).2 := by
  rcases mergeStep_cases fs al ts acc c with hc | ⟨u, v, hc, hne⟩
  · rw [hc]
    exact selfLoopFree_filter h
  · rw [hc]
    intro x hx
    rcases List.mem_append.mp hx with hx | hx
    · exact selfLoopFree_filter h x hx
    · simp only [List.mem_singleton] at hx
      rw [hx]
      exact hne

theorem mergeFold_slf {fs al ts : String} :
    ∀ (L : List (String × String)) (acc : Nat × List (String × String)),
      SelfLoopFree acc.2 → SelfLoopFree (L.foldl (mergeStep fs al ts) acc).2 := by
  intro L
  induction L with
  | nil => intro acc h; exact h
  | cons c cs ih =>
    intro acc h
    rw [List.foldl_cons]
    exact ih _ (mergeStep_slf h)

theorem add_connection_sorted {st : St} {a b : String} (h : SortedConns st.connections) :
    SortedConns (add_connection st a b).2.connections := by
  unfold add_connection
  split
  · dsimp only
    split
    · exact h
    · exact sortedConns_snoc h
  · exact h

theorem delete_connection_sorted {st : St} {a b : String} (h : SortedConns st.connections) :
    SortedConns (delete_connection st a b).2.connections := by
  unfold delete_connection
  split
  · dsimp only
    split
    · exact sortedConns_filter h
    · split
      · exact sortedConns_filter h
      · exact h
  · exact h

theorem merge_pins_sorted {st : St} {a b : String} (h : SortedConns st.connections) :
    SortedConns (merge_pins st a b).2.2.connections := by
  unfold merge_pins
  split
  · dsimp only
    split
    · exact h
    · exact mergeFold_sorted _ _ h
  · exact h

theorem delete_pin_connections_sorted {st : St} {a : String} (h : SortedConns st.connections) :
    SortedConns (delete_pin_connections st a).2.connections := by
  unfold delete_pin_connections
  split
  · dsimp only
    split
    · exact h
    · exact sortedConns_filter h
  · exact h

theorem delete_component_sorted {st : St} {r : String} (h : SortedConns st.connections) :
    SortedConns (delete_component st r).2.connections := by
  unfold delete_component
  dsimp only
  split
  · exact h
  · exact sortedConns_filter h

theorem edit_component_pins_conns (st : St) (r : String) (n : Nat) :
    (edit_component_pins st r n).2.connections = st.connections := by
  unfold edit_component_pins
  dsimp only
  split
  · rfl
  · rfl

theorem reachable_sorted {s : St} (h : Reachable s) : SortedConns s.connections := by
  induction h with
  | init => intro c hc; cases hc
  | addComp s r pins? v _ ih => exact ih
  | editPins s r n _ ih => rw [edit_component_pins_conns]; exact ih
  | delComp s r _ ih => exact delete_component_sorted ih
  | addConn s a b _ ih => exact add_connection_sorted ih
  | delConn s a b _ ih => exact delete_connection_sorted ih
  | mergeP s a b _ ih => exact merge_pins_sorted ih
  | delPin s a _ ih => exact delete_pin_connections_sorted ih

theorem reachable_no_perm {s : St} (h : Reachable s) {a b : String}
    (h1 : (a, b) ∈ s.connections) (h2 : (b, a) ∈ s.connections) : a = b := by
  have hs := reachable_sorted h
  have e1 : strLt a b = false := hs (b, a) h2
  have e2 : strLt b a = false := hs (a, b) h1
  exact strLt_antisym e1 e2

theorem delete_connection_slf {st : St} {a b : String} (h : SelfLoopFree st.connections) :
    SelfLoopFree (delete_connection st a b).2.connections := by
  unfold delete_connection
  split
  · dsimp only
    split
    · exact selfLoopFree_filter h
    · split
      · exact selfLoopFree_filter h
      · exact h
  · exact h

theorem merge_pins_slf {st : St} {a b : String} (h : SelfLoopFree st.connections) :
    SelfLoopFree (merge_pins st a b).2.2.connections := by
  unfold merge_pins
  split
  · dsimp only
    split
    · exact h
    · exact mergeFold_slf _ _ h
  · exact h

theorem delete_pin_connections_slf {st : St} {a : String} (h : SelfLoopFree st.connections) :
    SelfLoopFree (delete_pin_connections st a).2.connections := by
  unfold delete_pin_connections
  split
  · dsimp only
    split
    · exact h
    · exact selfLoopFree_filter h
  · exact h

theorem add_connection_slf {st : St} {a b : String} {p1 p2 : String × Option String}
    (hp1 : parse_pin st.components a = some p1) (hp2 : parse_pin st.components b = some p2)
    (hne : format_pin p1 ≠ format_pin p2) (h : SelfLoopFree st.connections) :
    SelfLoopFree (add_connection st a b).2.connections := by
  unfold add_connection
  rw [hp1, hp2]
  dsimp only
  split
  · exact h
  · intro c hc
    rcases List.mem_append.mp hc with hc | hc
    · exact h c hc
    · simp only [List.mem_singleton] at hc
      rw [hc]
      rcases sortPair_cases (format_pin p1) (format_pin p2) with hsp | hsp <;> rw [hsp]
      · exact hne
      · exact fun hcon => hne hcon.symm

theorem add_connection_self_loop {st : St} {a b : String} {p1 p2 : String × Option String}
    (hp1 : parse_pin st.components a = some p1) (hp2 : parse_pin st.components b = some p2)
    (heq : format_pin p1 = format_pin p2)
    (habs : (format_pin p1, format_pin p1) ∉ st.connections) :
    (format_pin p1, format_pin p1) ∈ (add_connection st a b).2.connections := by
  unfold add_connection
  rw [hp1, hp2]
  dsimp only
  have hsp : sortPair (format_pin p1) (format_pin p2) = (format_pin p1, format_pin p1) := by
    rw [← heq]
    unfold sortPair
    rw [show strLt (format_pin p1) (format_pin p1) = false from strLtData_irrefl _]
    simp
  rw [hsp]
  rw [if_neg habs]
  simp

theorem alookup_aset {β : Type} (l : List (String × β)) (k : String) (v : β) (z : String) :
    alookup (aset l k v) z = if k = z then some v else alookup l z := by
  induction l with
  | nil =>
    unfold aset alookup
    by_cases h : k = z
    · rw [if_pos h, if_pos h]
    · rw [if_neg h, if_neg h]
      rfl
  | cons e t ih =>
    obtain ⟨k2, v2⟩ := e
    unfold aset
    by_cases h2 : k2 = k
    · rw [if_pos h2]
      unfold alookup
      subst h2
      by_cases h : k2 = z
      · rw [if_pos h, if_pos h]
      · rw [if_neg h, if_neg h, if_neg h]
    · rw [if_neg h2]
      unfold alookup
      by_cases h : k2 = z
      · rw [if_pos h, if_pos h]
        have hkz : ¬ k = z := fun hc => h2 (h ▸ hc ▸ rfl)
        rw [if_neg hkz]
      · rw [if_neg h, if_neg h]
        exact ih

theorem alookup_some_mem {β : Type} {l : List (String × β)} {z : String} {w : β}
    (h : alookup l z = some w) : z ∈ l.map Prod.fst := by
  induction l with
  | nil => cases h
  | cons e t ih =>
    obtain ⟨k2, v2⟩ := e
    unfold alookup at h
    by_cases hk : k2 = z
    · rw [List.map_cons]
      rw [hk]
      exact List.mem_cons_self z _
    · rw [if_neg hk] at h
      exact List.mem_cons_of_mem _ (ih h)

theorem aset_length_lookup {β : Type} {l : List (String × β)} {k : String} {w : β} (v : β)
    (h : alookup l k = some w) : (aset l k v).length = l.length := by
  induction l with
  | nil => cases h
  | cons e t ih =>
    obtain ⟨k2, v2⟩ := e
    unfold alookup at h
    unfold aset
    by_cases hk : k2 = k
    · rw [if_pos hk]
      rfl
    · rw [if_neg hk]
      rw [if_neg hk] at h
      simp only [List.length_cons]
      rw [ih h]

theorem prSt_aset (p : Parent) (x v z : String) :
    prSt (aset p x v) z = if x = z then (if v = z then none else some v) else prSt p z := by
  unfold prSt
  rw [alookup_aset]
  by_cases h : x = z
  · rw [if_pos h, if_pos h]
  · rw [if_neg h, if_neg h]

theorem reachN_det {p : Parent} : ∀ {n x r : _}, ReachN p n x r →
    ∀ {m s : _}, ReachN p m x s → r = s := by
  intro n x r h1
  induction h1 with
  | root x hx =>
    intro m s h2
    cases h2 with
    | root _ _ => rfl
    | step _ y _ _ hy _ =>
      rw [hx] at hy
      cases hy
  | step x y r n hx _ ih =>
    intro m s h2
    cases h2 with
    | root _ hx2 =>
      rw [hx] at hx2
      cases hx2
    | step _ y2 _ m2 hx2 hr2 =>
      rw [hx] at hx2
      cases hx2
      exact ih hr2

theorem reach_det {p : Parent} {x r s : String} (h1 : Reach p x r) (h2 : Reach p x s) :
    r = s := by
  obtain ⟨n, h1⟩ := h1
  obtain ⟨m, h2⟩ := h2
  exact reachN_det h1 h2

theorem reachN_d_le {p : Parent} {d : String → Nat} (hInv : InvD p d) :
    ∀ {n x r : _}, ReachN p n x r → d r ≤ d x ∧ (0 < n → d r < d x) := by
  intro n x r h
  induction h with
  | root x hx => exact ⟨le_refl _, fun hc => absurd hc (by omega)⟩
  | step x y r n hx _ ih =>
    have hy := hInv x y hx
    exact ⟨by omega, fun _ => by omega⟩

theorem reachN_target_root {p : Parent} : ∀ {n x r : _}, ReachN p n x r → prSt p r = none := by
  intro n x r h
  induction h with
  | root x hx => exact hx
  | step x y r n hx _ ih => exact ih

theorem reach_self_root {p : Parent} {d : String → Nat} (hInv : InvD p d) {x : String}
    (h : Reach p x x) : prSt p x = none := by
  obtain ⟨n, h⟩ := h
  cases h with
  | root _ hx => exact hx
  | step _ y _ m hx hr =>
    have hy := hInv x y hx
    have := (reachN_d_le hInv hr).1
    omega

theorem reach_exists {p : Parent} {d : String → Nat} (hInv : InvD p d) (x : String) :
    ∃ n r, ReachN p n x r := by
  have main : ∀ k x, d x = k → ∃ n r, ReachN p n x r := by
    intro k
    induction k using Nat.strong_induction_on with
    | _ k ih =>
      intro x hx
      cases hp : prSt p x with
      | none => exact ⟨0, x, ReachN.root x hp⟩
      | some y =>
        have hd := hInv x y hp
        obtain ⟨n, r, hr⟩ := ih (d y) (by omega) y rfl
        exact ⟨n + 1, r, ReachN.step x y r n hp hr⟩
  exact main (d x) x rfl

theorem reachN_path {p : Parent} {d : String → Nat} (hInv : InvD p d) :
    ∀ {n x r : _}, ReachN p n x r →
      ∃ L : List String, L.length = n ∧ L.Nodup ∧
        (∀ z ∈ L, ∃ w, prSt p z = some w) ∧ (∀ z ∈ L, d z ≤ d x) := by
  intro n x r h
  induction h with
  | root x hx => exact ⟨[], rfl, List.nodup_nil, fun z hz => absurd hz (List.not_mem_nil z),
      fun z hz => absurd hz (List.not_mem_nil z)⟩
  | step x y r n hx hr ih =>
    obtain ⟨L, hlen, hnd, hlk, hbd⟩ := ih
    have hxy := hInv x y hx
    refine ⟨x :: L, by simp [hlen], ?_, ?_, ?_⟩
    · rw [List.nodup_cons]
      constructor
      · intro hmem
        have := hbd x hmem
        omega
      · exact hnd
    · intro z hz
      rcases List.mem_cons.mp hz with rfl | hz
      · exact ⟨y, hx⟩
      · exact hlk z hz
    · intro z hz
      rcases List.mem_cons.mp hz with rfl | hz
      · exact le_refl _
      · have := hbd z hz
        omega

theorem reachN_len_le {p : Parent} {d : String → Nat} (hInv : InvD p d) {n : Nat}
    {x r : String} (h : ReachN p n x r) : n ≤ p.length := by
  obtain ⟨L, hlen, hnd, hlk, _⟩ := reachN_path hInv h
  have hsub : L ⊆ p.map Prod.fst := by
    intro z hz
    obtain ⟨w, hw⟩ := hlk z hz
    unfold prSt at hw
    cases hl : alookup p z with
    | none => rw [hl] at hw; cases hw
    | some y => exact alookup_some_mem hl
  have h1 : L.toFinset.card = L.length := List.toFinset_card_of_nodup hnd
  have h2 : L.toFinset ⊆ (p.map Prod.fst).toFinset := by
    intro a ha
    rw [List.mem_toFinset] at ha ⊢
    exact hsub ha
  have h3 := Finset.card_le_card h2
  have h4 := List.toFinset_card_le (p.map Prod.fst)
  rw [h1] at h3
  rw [List.length_map] at h4
  omega

theorem reachN_congr {p q : Parent} (hpq : ∀ z, prSt p z = prSt q z) :
    ∀ {n x r : _}, ReachN p n x r → ReachN q n x r := by
  intro n x r h
  induction h with
  | root x hx => exact ReachN.root x (hpq x ▸ hx)
  | step x y r n hx _ ih => exact ReachN.step x y r n (hpq x ▸ hx) ih

theorem compress_equiv {p : Parent} {d : String → Nat} (hInv : InvD p d) {x r : String}
    (hxr : Reach p x r) (hne : x ≠ r) :
    InvD (aset p x r) d ∧ (∀ z s, Reach (aset p x r) z s ↔ Reach p z s) := by
  obtain ⟨n, hR⟩ := hxr
  obtain ⟨y, hy, n2, hR2, hn2⟩ :
      ∃ y, prSt p x = some y ∧ ∃ n2, ReachN p n2 y r ∧ n = n2 + 1 := by
    cases hR with
    | root _ _ => exact absurd rfl hne
    | step _ y _ k hy hrec => exact ⟨y, hy, k, hrec, rfl⟩
  have hroot : prSt p r = none := reachN_target_root hR
  have hdr : d r < d x := (reachN_d_le hInv hR).2 (by omega)
  have hset : ∀ z, prSt (aset p x r) z = if x = z then some r else prSt p z := by
    intro z
    rw [prSt_aset]
    by_cases hz : x = z
    · rw [if_pos hz, if_pos hz, if_neg]
      intro hc
      rw [← hz] at hc
      exact hne hc.symm
    · rw [if_neg hz, if_neg hz]
  have hInv2 : InvD (aset p x r) d := by
    intro z w hzw
    rw [hset z] at hzw
    by_cases hz : x = z
    · rw [if_pos hz] at hzw
      cases hzw
      rw [← hz]
      exact hdr
    · rw [if_neg hz] at hzw
      exact hInv z w hzw
  refine ⟨hInv2, fun z s => ⟨?_, ?_⟩⟩
  · rintro ⟨m, hm⟩
    induction hm with
    | root z hz =>
      rw [hset z] at hz
      by_cases hxz : x = z
      · rw [if_pos hxz] at hz
        cases hz
      · rw [if_neg hxz] at hz
        exact ⟨0, ReachN.root z hz⟩
    | step z w s m hz hrec ih =>
      rw [hset z] at hz
      by_cases hxz : x = z
      · rw [if_pos hxz] at hz
        cases hz
        have hrootset : prSt (aset p x r) r = none := by
          rw [hset r, if_neg (fun hc => hne hc), hroot]
        cases hrec with
        | root _ _ =>
          rw [← hxz]
          exact ⟨n, hR⟩
        | step _ w2 _ m2 hw2 _ =>
          rw [hrootset] at hw2
          cases hw2
      · rw [if_neg hxz] at hz
        obtain ⟨k, hk⟩ := ih
        exact ⟨k + 1, ReachN.step z w s k hz hk⟩
  · rintro ⟨m, hm⟩
    induction hm with
    | root z hz =>
      have hxz : x ≠ z := by
        intro hc
        rw [← hc, hy] at hz
        cases hz
      refine ⟨0, ReachN.root z ?_⟩
      rw [hset z, if_neg hxz]
      exact hz
    | step z w s m hz hrec ih =>
      by_cases hxz : x = z
      · have hw : w = y := by
          rw [← hxz, hy] at hz
          cases hz
          rfl
        have hsr : s = r := by
          apply reachN_det hrec
          rw [hw]
          exact hR2
        refine ⟨1, ReachN.step z r s 0 ?_ ?_⟩
        · rw [hset z, if_pos hxz]
        · rw [hsr]
          refine ReachN.root r ?_
          rw [hset r, if_neg (fun hc => hne hc), hroot]
      · obtain ⟨k, hk⟩ := ih
        refine ⟨k + 1, ReachN.step z w s k ?_ hk⟩
        rw [hset z, if_neg hxz]
        exact hz

theorem findAux_spec :
    ∀ (fuel : Nat) (p : Parent) (x : String) (d : String → Nat) (n : Nat) (r : String),
      InvD p d → ReachN p n x r → n < fuel →
      (findAux fuel p x).1 = r ∧ InvD (findAux fuel p x).2 d ∧
      (∀ z s, Reach (findAux fuel p x).2 z s ↔ Reach p z s) := by
  intro fuel
  induction fuel with
  | zero =>
    intro p x d n r _ _ hn
    omega
  | succ m ih =>
    intro p x d n r hInv hR hn
    cases hp : alookup p x with
    | none =>
      have hprst : prSt p x = none := by
        unfold prSt
        rw [hp]
      have hrx : r = x := by
        cases hR with
        | root _ _ => rfl
        | step _ y _ k hy _ =>
          rw [hprst] at hy
          cases hy
      have hval : findAux (Nat.succ m) p x = (x, aset p x x) := by
        unfold findAux
        rw [hp]
      rw [hval]
      dsimp only
      have hpr : ∀ z, prSt (aset p x x) z = prSt p z := by
        intro z
        rw [prSt_aset]
        by_cases hz : x = z
        · rw [if_pos hz, if_pos hz]
          subst hz
          exact hprst.symm
        · rw [if_neg hz]
      refine ⟨hrx.symm, ?_, ?_⟩
      · intro z w hzw
        exact hInv z w ((hpr z) ▸ hzw)
      · intro z s
        constructor
        · rintro ⟨k, hk⟩
          exact ⟨k, reachN_congr hpr hk⟩
        · rintro ⟨k, hk⟩
          exact ⟨k, reachN_congr (fun w => (hpr w).symm) hk⟩
    | some px =>
      by_cases hself : px = x
      · have hprst : prSt p x = none := by
          unfold prSt
          rw [hp]
          dsimp only
          rw [if_pos hself]
        have hrx : r = x := by
          cases hR with
          | root _ _ => rfl
          | step _ y _ k hy _ =>
            rw [hprst] at hy
            cases hy
        have hval : findAux (Nat.succ m) p x = (x, p) := by
          unfold findAux
          rw [hp]
          dsimp only
          rw [if_pos hself]
        rw [hval]
        exact ⟨hrx.symm, hInv, fun z s => Iff.rfl⟩
      · have hprst : prSt p x = some px := by
          unfold prSt
          rw [hp]
          dsimp only
          rw [if_neg hself]
        cases hR with
        | root _ hx =>
          rw [hprst] at hx
          cases hx
        | step _ y _ k hy hRk =>
          have hy2 : y = px := by
            rw [hprst] at hy
            exact (Option.some.inj hy).symm
          rw [hy2] at hRk
          obtain ⟨h1, h2, h3⟩ := ih p px d k r hInv hRk (by omega)
          have hval : findAux (Nat.succ m) p x
              = ((findAux m p px).1, aset (findAux m p px).2 x (findAux m p px).1) := by
            conv_lhs => unfold findAux
            rw [hp]
            dsimp only
            rw [if_neg hself]
          rw [hval]
          dsimp only
          rw [h1]
          have hxr1 : Reach (findAux m p px).2 x r :=
            (h3 x r).mpr ⟨k + 1, ReachN.step x px r k hprst hRk⟩
          have hne : x ≠ r := by
            have hd := (reachN_d_le hInv (ReachN.step x px r k hprst hRk)).2 (by omega)
            intro hc
            rw [hc] at hd
            omega
          obtain ⟨hInv2, hiff2⟩ := compress_equiv h2 hxr1 hne
          exact ⟨rfl, hInv2, fun z s => Iff.trans (hiff2 z s) (h3 z s)⟩

theorem find_spec {p : Parent} {d : String → Nat} (hInv : InvD p d) (x : String) :
    Reach p x (find p x).1 ∧ InvD (find p x).2 d ∧
      (∀ z s, Reach (find p x).2 z s ↔ Reach p z s) := by
  obtain ⟨n, r, hR⟩ := reach_exists hInv x
  have hb := reachN_len_le hInv hR
  obtain ⟨h1, h2, h3⟩ := findAux_spec (p.length + 1) p x d n r hInv hR (by omega)
  unfold find
  rw [h1]
  exact ⟨⟨n, hR⟩, h2, h3⟩

theorem reach_step_root {p : Parent} {z w s : String} (hz : prSt p z = some w)
    (hws : Reach p w s) : Reach p z s := by
  obtain ⟨k, hk⟩ := hws
  exact ⟨k + 1, ReachN.step z w s k hz hk⟩

theorem reach_unstep {p : Parent} {z w s : String} (hz : prSt p z = some w)
    (hzs : Reach p z s) : Reach p w s := by
  obtain ⟨k, hk⟩ := hzs
  cases hk with
  | root _ hr =>
    rw [hz] at hr
    cases hr
  | step _ w2 _ m hw2 hrec =>
    rw [hz] at hw2
    cases hw2
    exact ⟨m, hrec⟩

theorem union_link_inv {p : Parent} {d : String → Nat} (hInv : InvD p d) {px py : String}
    (hpx : prSt p px = none) (hpy : prSt p py = none) (hne : px ≠ py) :
    ∃ d2, InvD (aset p px py) d2 := by
  classical
  refine ⟨fun z => if Reach p z px then d z + d py + 1 else d z, ?_⟩
  intro z w hzw
  dsimp only
  rw [prSt_aset] at hzw
  by_cases hz : px = z
  · rw [if_pos hz] at hzw
    rw [if_neg (fun hc => hne (hz.trans hc.symm))] at hzw
    cases hzw
    rw [← hz]
    have h1 : Reach p px px := ⟨0, ReachN.root px hpx⟩
    rw [if_pos h1]
    have h2 : ¬ Reach p py px := by
      intro hc
      exact hne (reach_det ⟨0, ReachN.root py hpy⟩ hc).symm
    rw [if_neg h2]
    omega
  · rw [if_neg hz] at hzw
    have hd := hInv z w hzw
    by_cases hr : Reach p z px
    · have hwr : Reach p w px := reach_unstep hzw hr
      rw [if_pos hr, if_pos hwr]
      omega
    · have hwr : ¬ Reach p w px := fun hc => hr (reach_step_root hzw hc)
      rw [if_neg hr, if_neg hwr]
      omega

theorem unionUF_inv {p : Parent} (h : ∃ d, InvD p d) (x y : String) :
    ∃ d2, InvD (unionUF p x y) d2 := by
  obtain ⟨d, hInv⟩ := h
  obtain ⟨hx1, hx2, hx3⟩ := find_spec hInv x
  obtain ⟨hy1, hy2, hy3⟩ := find_spec hx2 y
  have hpxroot : prSt (find (find p x).2 y).2 (find p x).1 = none := by
    apply reach_self_root hy2
    refine (hy3 _ _).mpr ((hx3 _ _).mpr ?_)
    obtain ⟨n, hn⟩ := hx1
    exact ⟨0, ReachN.root _ (reachN_target_root hn)⟩
  have hpyroot : prSt (find (find p x).2 y).2 (find (find p x).2 y).1 = none := by
    apply reach_self_root hy2
    refine (hy3 _ _).mpr ?_
    obtain ⟨n, hn⟩ := hy1
    exact ⟨0, ReachN.root _ (reachN_target_root hn)⟩
  unfold unionUF
  dsimp only
  by_cases hne : (find p x).1 ≠ (find (find p x).2 y).1
  · rw [if_pos hne]
    exact union_link_inv hy2 hpxroot hpyroot hne
  · rw [if_neg hne]
    exact ⟨d, hy2⟩

theorem unionFold_inv :
    ∀ (L : List (String × String)) (p : Parent), (∃ d, InvD p d) →
      ∃ d, InvD (L.foldl (fun q c => unionUF q c.1 c.2) p) d := by
  intro L
  induction L with
  | nil => intro p h; exact h
  | cons c cs ih =>
    intro p h
    rw [List.foldl_cons]
    exact ih _ (unionUF_inv h c.1 c.2)

theorem entryMem_cons {k : String} {ms : List String} {t : List (String × List String)}
    {r q : String} :
    entryMem ((k, ms) :: t) r q ↔ (r = k ∧ q ∈ ms) ∨ entryMem t r q := by
  constructor
  · rintro ⟨m3, hm, hq⟩
    rcases List.mem_cons.mp hm with hm | hm
    · obtain ⟨h1, h2⟩ := Prod.mk.injEq .. ▸ hm
      exact Or.inl ⟨h1, h2 ▸ hq⟩
    · exact Or.inr ⟨m3, hm, hq⟩
  · rintro (⟨rfl, hq⟩ | ⟨m3, hm, hq⟩)
    · exact ⟨ms, List.mem_cons_self _ _, hq⟩
    · exact ⟨m3, List.mem_cons_of_mem _ hm, hq⟩

theorem netsAdd_keys_sub {nets : List (String × List String)} {root pin : String} :
    ∀ k ∈ (netsAdd nets root pin).map Prod.fst, k = root ∨ k ∈ nets.map Prod.fst := by
  induction nets with
  | nil =>
    intro k hk
    simp only [netsAdd, List.map_cons, List.map_nil, List.mem_singleton] at hk
    exact Or.inl hk
  | cons e t ih =>
    obtain ⟨k2, ms⟩ := e
    intro k hk
    unfold netsAdd at hk
    by_cases h : k2 = root
    · rw [if_pos h] at hk
      simp only [List.map_cons, List.mem_cons] at hk
      rcases hk with rfl | hk
      · exact Or.inr (List.mem_cons_self _ _)
      · exact Or.inr (List.mem_cons_of_mem _ hk)
    · rw [if_neg h] at hk
      simp only [List.map_cons, List.mem_cons] at hk
      rcases hk with rfl | hk
      · exact Or.inr (List.mem_cons_self _ _)
      · rcases ih k hk with h2 | h2
        · exact Or.inl h2
        · exact Or.inr (List.mem_cons_of_mem _ h2)

theorem netsAdd_keysNodup {nets : List (String × List String)} {root pin : String}
    (h : KeysNodup nets) : KeysNodup (netsAdd nets root pin) := by
  induction nets with
  | nil =>
    simp [netsAdd, KeysNodup]
  | cons e t ih =>
    obtain ⟨k2, ms⟩ := e
    unfold KeysNodup at h
    rw [List.map_cons, List.nodup_cons] at h
    obtain ⟨hk2, ht⟩ := h
    unfold netsAdd KeysNodup
    by_cases hr : k2 = root
    · rw [if_pos hr]
      rw [List.map_cons, List.nodup_cons]
      exact ⟨hk2, ht⟩
    · rw [if_neg hr]
      rw [List.map_cons, List.nodup_cons]
      refine ⟨?_, ih ht⟩
      intro hc
      rcases netsAdd_keys_sub k2 hc with h2 | h2
      · exact hr h2
      · exact hk2 h2

theorem netsAdd_mem {nets : List (String × List String)} {root pin r q : String} :
    entryMem (netsAdd nets root pin) r q ↔
      entryMem nets r q ∨ (r = root ∧ q = pin) := by
  induction nets with
  | nil =>
    unfold netsAdd
    constructor
    · rintro ⟨ms, hm, hq⟩
      rw [List.mem_singleton] at hm
      obtain ⟨h1, h2⟩ := Prod.mk.injEq .. ▸ hm
      rw [h2] at hq
      rw [List.mem_singleton] at hq
      exact Or.inr ⟨h1, hq⟩
    · rintro (⟨ms, hm, _⟩ | ⟨rfl, rfl⟩)
      · cases hm
      · exact ⟨[q], List.mem_singleton_self _, List.mem_singleton_self _⟩
  | cons e t ih =>
    obtain ⟨k2, ms⟩ := e
    unfold netsAdd
    by_cases hr : k2 = root
    · rw [if_pos hr]
      rw [entryMem_cons, entryMem_cons]
      have hms2 : ∀ x, (x ∈ (if pin ∈ ms then ms else ms ++ [pin])) ↔ (x ∈ ms ∨ x = pin) := by
        intro x
        by_cases hp : pin ∈ ms
        · rw [if_pos hp]
          constructor
          · exact Or.inl
          · rintro (hx | rfl)
            · exact hx
            · exact hp
        · rw [if_neg hp]
          rw [List.mem_append, List.mem_singleton]
      rw [hr]
      constructor
      · rintro (⟨rfl, hq⟩ | hmem)
        · rcases (hms2 q).mp hq with hq | rfl
          · exact Or.inl (Or.inl ⟨rfl, hq⟩)
          · exact Or.inr ⟨rfl, rfl⟩
        · exact Or.inl (Or.inr hmem)
      · rintro ((⟨rfl, hq⟩ | hmem) | ⟨rfl, rfl⟩)
        · exact Or.inl ⟨rfl, (hms2 q).mpr (Or.inl hq)⟩
        · exact Or.inr hmem
        · exact Or.inl ⟨rfl, (hms2 q).mpr (Or.inr rfl)⟩
    · rw [if_neg hr]
      rw [entryMem_cons, entryMem_cons, ih]
      tauto

theorem keysNodup_mem_eq {nets : List (String × List String)} {k : String}
    {a b : List String} (h : KeysNodup nets) (ha : (k, a) ∈ nets) (hb : (k, b) ∈ nets) :
    a = b := by
  induction nets with
  | nil => cases ha
  | cons e t ih =>
    obtain ⟨k2, ms⟩ := e
    unfold KeysNodup at h
    rw [List.map_cons, List.nodup_cons] at h
    obtain ⟨hk2, ht⟩ := h
    rcases List.mem_cons.mp ha with ha1 | ha1 <;> rcases List.mem_cons.mp hb with hb1 | hb1
    · obtain ⟨_, h2⟩ := Prod.mk.injEq .. ▸ ha1
      obtain ⟨_, h4⟩ := Prod.mk.injEq .. ▸ hb1
      rw [h2, h4]
    · obtain ⟨h1, _⟩ := Prod.mk.injEq .. ▸ ha1
      have hmm : k ∈ t.map Prod.fst := List.mem_map_of_mem Prod.fst hb1
      exact absurd (h1 ▸ hmm) hk2
    · obtain ⟨h1, _⟩ := Prod.mk.injEq .. ▸ hb1
      have hmm : k ∈ t.map Prod.fst := List.mem_map_of_mem Prod.fst ha1
      exact absurd (h1 ▸ hmm) hk2
    · exact ih ht ha1 hb1

theorem groupStep_spec {P : Parent} {acc : Parent × List (String × List String)}
    {E : List String} (pin : String)
    (hinv : ∃ d, InvD acc.1 d)
    (hiff : ∀ z s, Reach acc.1 z s ↔ Reach P z s)
    (hnd : KeysNodup acc.2)
    (hmem : ∀ r q, entryMem acc.2 r q ↔ (q ∈ E ∧ Reach P q r)) :
    (∃ d, InvD (groupStep acc pin).1 d) ∧
    (∀ z s, Reach (groupStep acc pin).1 z s ↔ Reach P z s) ∧
    KeysNodup (groupStep acc pin).2 ∧
    (∀ r q, entryMem (groupStep acc pin).2 r q ↔ (q ∈ E ++ [pin] ∧ Reach P q r)) := by
  obtain ⟨d, hd⟩ := hinv
  obtain ⟨hf1, hf2, hf3⟩ := find_spec hd pin
  unfold groupStep
  dsimp only
  refine ⟨⟨d, hf2⟩, fun z s => (hf3 z s).trans (hiff z s), netsAdd_keysNodup hnd, ?_⟩
  intro r q
  rw [netsAdd_mem, hmem]
  have hroot : Reach P pin (find acc.1 pin).1 := (hiff _ _).mp hf1
  rw [List.mem_append, List.mem_singleton]
  constructor
  · rintro (⟨hq, hr⟩ | ⟨rfl, rfl⟩)
    · exact ⟨Or.inl hq, hr⟩
    · exact ⟨Or.inr rfl, hroot⟩
  · rintro ⟨hq | rfl, hr⟩
    · exact Or.inl ⟨hq, hr⟩
    · exact Or.inr ⟨reach_det hr hroot, rfl⟩

theorem groupFold_spec {P : Parent} :
    ∀ (rest : List (String × String)) (acc : Parent × List (String × List String))
      (E : List String),
      (∃ d, InvD acc.1 d) →
      (∀ z s, Reach acc.1 z s ↔ Reach P z s) →
      KeysNodup acc.2 →
      (∀ r q, entryMem acc.2 r q ↔ (q ∈ E ∧ Reach P q r)) →
      KeysNodup (rest.foldl (fun a c => groupStep (groupStep a c.1) c.2) acc).2 ∧
      (∀ r q, entryMem (rest.foldl (fun a c => groupStep (groupStep a c.1) c.2) acc).2 r q ↔
        ((q ∈ E ∨ q ∈ endpoints rest) ∧ Reach P q r)) := by
  intro rest
  induction rest with
  | nil =>
    intro acc E h1 h2 h3 h4
    rw [List.foldl_nil]
    refine ⟨h3, fun r q => ?_⟩
    rw [h4 r q]
    unfold endpoints
    simp
  | cons c cs ih =>
    intro acc E h1 h2 h3 h4
    rw [List.foldl_cons]
    obtain ⟨i1, i2, i3, i4⟩ := groupStep_spec c.1 h1 h2 h3 h4
    obtain ⟨j1, j2, j3, j4⟩ := groupStep_spec c.2 i1 i2 i3 i4
    obtain ⟨m1, m2⟩ := ih (groupStep (groupStep acc c.1) c.2) ((E ++ [c.1]) ++ [c.2]) j1 j2 j3 j4
    refine ⟨m1, fun r q => ?_⟩
    rw [m2 r q]
    have hep : endpoints (c :: cs) = c.1 :: c.2 :: endpoints cs := by
      unfold endpoints
      rw [List.flatMap_cons]
      rfl
    rw [hep]
    simp only [List.mem_append, List.mem_singleton, List.mem_cons]
    tauto

theorem build_nets_spec (conns : List (String × String)) :
    KeysNodup (build_nets conns) ∧
    ∃ P : Parent, (∃ d, InvD P d) ∧
      (∀ r q, entryMem (build_nets conns) r q ↔ (q ∈ endpoints conns ∧ Reach P q r)) := by
  unfold build_nets
  dsimp only
  have hP := unionFold_inv conns [] ⟨fun _ => 0, fun z y hzy => by cases hzy⟩
  obtain ⟨m1, m2⟩ := groupFold_spec conns
    ((conns.foldl (fun p c => unionUF p c.1 c.2) ([] : Parent)), []) [] hP
    (fun z s => Iff.rfl) (by simp [KeysNodup])
    (fun r q => by
      constructor
      · rintro ⟨ms, hm, _⟩
        cases hm
      · rintro ⟨hq, _⟩
        cases hq)
  refine ⟨m1, conns.foldl (fun p c => unionUF p c.1 c.2) ([] : Parent), hP, fun r q => ?_⟩
  rw [m2 r q]
  constructor
  · rintro ⟨hq | hq, hr⟩
    · cases hq
    · exact ⟨hq, hr⟩
  · rintro ⟨hq, hr⟩
    exact ⟨Or.inr hq, hr⟩

theorem insKey_perm (x : String × Component) (l : List (String × Component)) :
    (insKey x l).Perm (x :: l) := by
  induction l with
  | nil => exact List.Perm.refl _
  | cons y ys ih =>
    unfold insKey
    by_cases h : strLt y.1 x.1 = true
    · rw [if_pos h]
      exact (List.Perm.cons y ih).trans (List.Perm.swap x y ys)
    · rw [if_neg h]

theorem sortByKey_perm (l : List (String × Component)) : (sortByKey l).Perm l := by
  induction l with
  | nil => exact List.Perm.refl _
  | cons x t ih =>
    unfold sortByKey
    rw [List.foldr_cons]
    exact (insKey_perm x _).trans (List.Perm.cons x ih)

theorem mem_sortByKey {l : List (String × Component)} {e : String × Component} :
    e ∈ sortByKey l ↔ e ∈ l :=
  (sortByKey_perm l).mem_iff

theorem mem_get_remaining_pins {st : St} {filt : Option String} {ref : String} {n : Nat}
    {v : String} :
    (ref, n, v) ∈ get_remaining_pins st filt ↔
      ∃ comp : Component, (ref, comp) ∈ st.components ∧ 1 < comp.pins ∧
        passFilter filt ref = true ∧ comp.value = v ∧ 1 ≤ n ∧ n ≤ comp.pins ∧
        (ref ++ "-" ++ toString n) ∉ endpoints st.connections := by
  unfold get_remaining_pins
  rw [List.mem_flatMap]
  constructor
  · rintro ⟨e, he, hmem⟩
    rw [mem_sortByKey] at he
    by_cases h1 : e.2.pins ≤ 1
    · rw [if_pos h1] at hmem
      cases hmem
    · rw [if_neg h1] at hmem
      by_cases h2 : passFilter filt e.1 = true
      · rw [h2] at hmem
        simp only [Bool.not_true, Bool.false_eq_true, if_false] at hmem
        rw [List.mem_filterMap] at hmem
        obtain ⟨m, hm, hsome⟩ := hmem
        by_cases h3 : (e.1 ++ "-" ++ toString m) ∈ endpoints st.connections
        · rw [if_pos h3] at hsome
          cases hsome
        · rw [if_neg h3] at hsome
          obtain ⟨he1, hn, hv⟩ : e.1 = ref ∧ m = n ∧ e.2.value = v := by
            have := Option.some.inj hsome
            exact ⟨congrArg Prod.fst this, congrArg Prod.fst (congrArg Prod.snd this),
              congrArg Prod.snd (congrArg Prod.snd this)⟩
          rw [List.mem_range'] at hm
          obtain ⟨i, hi, hmi⟩ := hm
          refine ⟨e.2, ?_, by omega, he1 ▸ h2, hv, by omega, by omega, ?_⟩
          · rw [← he1]
            exact he
          · rw [← he1, ← hn]
            exact h3
      · rw [Bool.not_eq_true] at h2
        rw [h2] at hmem
        simp only [Bool.not_false, if_true] at hmem
        cases hmem
  · rintro ⟨comp, hc, hpins, hfilt, hval, hn1, hn2, habs⟩
    refine ⟨(ref, comp), mem_sortByKey.mpr hc, ?_⟩
    dsimp only
    rw [if_neg (by omega)]
    rw [hfilt]
    simp only [Bool.not_true, Bool.false_eq_true, if_false]
    rw [List.mem_filterMap]
    refine ⟨n, ?_, ?_⟩
    · rw [List.mem_range']
      exact ⟨n - 1, by omega, by omega⟩
    · rw [if_neg habs, hval]

theorem mergeStep_cases2 (fs al ts : String) (acc : Nat × List (String × String))
    (c : String × String) :
    ((mergeStep fs al ts acc c).1 = acc.1 ∧
      (mergeStep fs al ts acc c).2 = acc.2.filter (fun x => x ≠ c)) ∨
    ((mergeStep fs al ts acc c).1 = acc.1 + 1 ∧
      (mergeStep fs al ts acc c).2 = acc.2.filter (fun x => x ≠ c) ++
        [sortPair (repPin fs al ts c.1) (repPin fs al ts c.2)] ∧
      (sortPair (repPin fs al ts c.1) (repPin fs al ts c.2)).1 ≠
        (sortPair (repPin fs al ts c.1) (repPin fs al ts c.2)).2 ∧
      sortPair (repPin fs al ts c.1) (repPin fs al ts c.2) ∉
        acc.2.filter (fun x => x ≠ c)) := by
  unfold mergeStep
  dsimp only
  by_cases h1 : (sortPair (repPin fs al ts c.1) (repPin fs al ts c.2)).1 ≠
      (sortPair (repPin fs al ts c.1) (repPin fs al ts c.2)).2
  · rw [if_pos h1]
    by_cases h2 : sortPair (repPin fs al ts c.1) (repPin fs al ts c.2) ∈
        acc.2.filter (fun x => x ≠ c)
    · rw [if_pos h2]
      exact Or.inl ⟨rfl, rfl⟩
    · rw [if_neg h2]
      exact Or.inr ⟨rfl, rfl, h1, h2⟩
  · rw [if_neg h1]
    exact Or.inl ⟨rfl, rfl⟩

theorem matchesFrom_false {fs al : String} {single : Bool} {c : String × String}
    (h : matchesFrom fs al single c = false) : c.1 ≠ fs ∧ c.2 ≠ fs := by
  unfold matchesFrom at h
  simp only [decide_eq_false_iff_not, not_or] at h
  exact ⟨h.1, h.2.1⟩

theorem repPin_ne_fs {fs al ts : String} (hne : ts ≠ fs) (x : String) :
    repPin fs al ts x ≠ fs := by
  unfold repPin
  by_cases h : x = fs ∨ x = al
  · rw [if_pos h]
    exact hne
  · rw [if_neg h]
    intro hc
    exact h (Or.inl hc)

theorem isRewriteOf_ne_fs {fs al ts : String} {single : Bool}
    {pre : List (String × String)} {x : String × String} (hne : ts ≠ fs)
    (h : IsRewriteOf fs al ts single pre x) : x.1 ≠ fs ∧ x.2 ≠ fs := by
  obtain ⟨c0, _, _, hx⟩ := h
  rcases sortPair_cases (repPin fs al ts c0.1) (repPin fs al ts c0.2) with hc | hc <;>
    rw [hx, hc]
  · exact ⟨repPin_ne_fs hne c0.1, repPin_ne_fs hne c0.2⟩
  · exact ⟨repPin_ne_fs hne c0.2, repPin_ne_fs hne c0.1⟩

theorem mergeFold_post (fs al ts : String) (single : Bool) (pre : List (String × String)) :
    ∀ (todo : List (String × String)) (acc : Nat × List (String × String)),
      (∀ x ∈ acc.2, (x ∈ pre ∧ matchesFrom fs al single x = false) ∨
        (IsRewriteOf fs al ts single pre x ∧ x.1 ≠ x.2) ∨
        (matchesFrom fs al single x = true ∧ x ∈ todo)) →
      (∀ c ∈ todo, matchesFrom fs al single c = true ∧ c ∈ pre) →
      ∀ x ∈ (todo.foldl (mergeStep fs al ts) acc).2,
        (x ∈ pre ∧ matchesFrom fs al single x = false) ∨
        (IsRewriteOf fs al ts single pre x ∧ x.1 ≠ x.2) := by
  intro todo
  induction todo with
  | nil =>
    intro acc hacc htodo x hx
    rw [List.foldl_nil] at hx
    rcases hacc x hx with h | h | ⟨_, h⟩
    · exact Or.inl h
    · exact Or.inr h
    · cases h
  | cons c cs ih =>
    intro acc hacc htodo x hx
    rw [List.foldl_cons] at hx
    refine ih (mergeStep fs al ts acc c) ?_ (fun c2 hc2 => htodo c2 (List.mem_cons_of_mem c hc2)) x hx
    intro z hz
    rcases mergeStep_cases2 fs al ts acc c with ⟨_, h2⟩ | ⟨_, h2, hne2, _⟩ <;> rw [h2] at hz
    · obtain ⟨hzm, hzc⟩ := List.mem_filter.mp hz
      rcases hacc z hzm with h | h | ⟨hm, hmem⟩
      · exact Or.inl h
      · exact Or.inr (Or.inl h)
      · refine Or.inr (Or.inr ⟨hm, ?_⟩)
        rcases List.mem_cons.mp hmem with rfl | hmem2
        · rw [decide_eq_true_eq] at hzc
          exact absurd rfl hzc
        · exact hmem2
    · rcases List.mem_append.mp hz with hz2 | hz2
      · obtain ⟨hzm, hzc⟩ := List.mem_filter.mp hz2
        rcases hacc z hzm with h | h | ⟨hm, hmem⟩
        · exact Or.inl h
        · exact Or.inr (Or.inl h)
        · refine Or.inr (Or.inr ⟨hm, ?_⟩)
          rcases List.mem_cons.mp hmem with rfl | hmem2
          · rw [decide_eq_true_eq] at hzc
            exact absurd rfl hzc
          · exact hmem2
      · rw [List.mem_singleton] at hz2
        obtain ⟨hmc, hcpre⟩ := htodo c (List.mem_cons_self c cs)
        refine Or.inr (Or.inl ⟨⟨c, hcpre, hmc, hz2⟩, ?_⟩)
        rw [hz2]
        exact hne2

theorem mergeFold_frame (fs al ts : String) (single : Bool) (pre : List (String × String)) :
    ∀ (todo : List (String × String)) (acc : Nat × List (String × String)),
      (∀ c ∈ todo, matchesFrom fs al single c = true) →
      (∀ x ∈ pre, matchesFrom fs al single x = false → x ∈ acc.2) →
      ∀ x ∈ pre, matchesFrom fs al single x = false →
        x ∈ (todo.foldl (mergeStep fs al ts) acc).2 := by
  intro todo
  induction todo with
  | nil =>
    intro acc _ hkeep x hx hmf
    rw [List.foldl_nil]
    exact hkeep x hx hmf
  | cons c cs ih =>
    intro acc htodo hkeep x hx hmf
    rw [List.foldl_cons]
    refine ih (mergeStep fs al ts acc c) (fun c2 hc2 => htodo c2 (List.mem_cons_of_mem c hc2))
      ?_ x hx hmf
    intro z hz hmfz
    have hzin := hkeep z hz hmfz
    have hzc : z ≠ c := by
      intro hc
      rw [hc] at hmfz
      rw [htodo c (List.mem_cons_self c cs)] at hmfz
      cases hmfz
    rcases mergeStep_cases2 fs al ts acc c with ⟨_, h2⟩ | ⟨_, h2, _, _⟩ <;> rw [h2]
    · exact List.mem_filter.mpr ⟨hzin, by rw [decide_eq_true_eq]; exact hzc⟩
    · exact List.mem_append.mpr (Or.inl (List.mem_filter.mpr
        ⟨hzin, by rw [decide_eq_true_eq]; exact hzc⟩))

theorem length_filter_ne_of_mem {l : List (String × String)} (hnd : l.Nodup)
    {c : String × String} (hc : c ∈ l) :
    (l.filter (fun x => x ≠ c)).length + 1 = l.length := by
  induction l with
  | nil => cases hc
  | cons a t ih =>
    rw [List.nodup_cons] at hnd
    obtain ⟨hat, hndt⟩ := hnd
    rcases List.mem_cons.mp hc with rfl | hct
    · rw [List.filter_cons]
      rw [if_neg (by simp)]
      have hfix : t.filter (fun x => x ≠ c) = t := by
        apply List.filter_eq_self.mpr
        intro b hb
        rw [decide_eq_true_eq]
        intro hbc
        exact hat (hbc ▸ hb)
      rw [hfix]
      rfl
    · have hac : a ≠ c := fun hcon => hat (hcon ▸ hct)
      rw [List.filter_cons, if_pos (by rw [decide_eq_true_eq]; exact hac)]
      rw [List.length_cons, List.length_cons]
      rw [← ih hndt hct]

theorem mergeFold_count (fs al ts : String) :
    ∀ (todo : List (String × String)) (acc : Nat × List (String × String)),
      acc.2.Nodup → todo.Nodup → (∀ c ∈ todo, c ∈ acc.2) →
      (todo.foldl (mergeStep fs al ts) acc).2.length + todo.length + acc.1
        = acc.2.length + (todo.foldl (mergeStep fs al ts) acc).1 := by
  intro todo
  induction todo with
  | nil =>
    intro acc _ _ _
    rw [List.foldl_nil, List.length_nil]
    omega
  | cons c cs ih =>
    intro acc hnd htodond htodo
    rw [List.nodup_cons] at htodond
    obtain ⟨hccs, hcsnd⟩ := htodond
    have hcmem : c ∈ acc.2 := htodo c (List.mem_cons_self c cs)
    have hflen := length_filter_ne_of_mem hnd hcmem
    have hfnd : (acc.2.filter (fun x => x ≠ c)).Nodup := List.Nodup.filter _ hnd
    have hcs_in : ∀ c2 ∈ cs, c2 ∈ acc.2.filter (fun x => x ≠ c) := by
      intro c2 hc2
      refine List.mem_filter.mpr ⟨htodo c2 (List.mem_cons_of_mem c hc2), ?_⟩
      rw [decide_eq_true_eq]
      intro hcon
      exact hccs (hcon ▸ hc2)
    rw [List.foldl_cons]
    rcases mergeStep_cases2 fs al ts acc c with ⟨h1, h2⟩ | ⟨h1, h2, _, hnotin⟩
    · have := ih (mergeStep fs al ts acc c) (h2 ▸ hfnd) hcsnd
        (fun c2 hc2 => h2 ▸ hcs_in c2 hc2)
      rw [h1, h2] at this
      rw [List.length_cons]
      omega
    · have hnd2 : (mergeStep fs al ts acc c).2.Nodup := by
        rw [h2]
        rw [List.nodup_append]
        refine ⟨hfnd, List.nodup_singleton _, ?_⟩
        intro a ha hb
        rw [List.mem_singleton] at hb
        exact hnotin (hb ▸ ha)
      have hcs_in2 : ∀ c2 ∈ cs, c2 ∈ (mergeStep fs al ts acc c).2 := by
        intro c2 hc2
        rw [h2]
        exact List.mem_append.mpr (Or.inl (hcs_in c2 hc2))
      have := ih (mergeStep fs al ts acc c) hnd2 hcsnd hcs_in2
      rw [h1] at this
      have hlen2 : (mergeStep fs al ts acc c).2.length
          = (acc.2.filter (fun x => x ≠ c)).length + 1 := by
        rw [h2]
        rw [List.length_append]
        rfl
      rw [List.length_cons]
      omega

theorem normalize_ref_idem (s : String) :
    normalize_ref (normalize_ref s) = normalize_ref s := by
  unfold normalize_ref
  dsimp only
  rw [canonTok_normPad_canonTok, normPad_idem]

theorem normalize_ref_runs (x : String) (A D : List Char)
    (hshape : canonTok x.data = A ++ D)
    (hA : ∀ c ∈ A, pyIsAlpha c = true) (hD : ∀ c ∈ D, pyIsDigit c = true) :
    (A ≠ [] → D ≠ [] → digitsVal D < 10 →
      normalize_ref x = String.mk (A ++ pad2 (digitsVal D))) ∧
    (A ≠ [] → D ≠ [] → 10 ≤ digitsVal D → normalize_ref x = String.mk (canonTok x.data)) ∧
    ((A = [] ∨ D = []) → normalize_ref x = String.mk (canonTok x.data)) := by
  have hfa : (canonTok x.data).filter pyIsAlpha = A := by
    rw [hshape]
    exact filter_alpha_of_mix hA hD
  have hfd : (canonTok x.data).filter pyIsDigit = D := by
    rw [hshape]
    exact filter_digit_of_mix hA hD
  unfold normalize_ref normPad
  rw [hfa, hfd]
  refine ⟨?_, ?_, ?_⟩
  · intro h1 h2 h3
    rw [if_pos ⟨h1, h2⟩, if_pos h3]
  · intro h1 h2 h3
    rw [if_pos ⟨h1, h2⟩, if_neg (by omega)]
  · intro h
    rw [if_neg (by tauto)]

theorem name_net_spec {st : St} {pin nm : String} {p : String × Option String}
    (hp : parse_pin st.components pin = some p) :
    ((p.1 ++ "-" ++ (match p.2 with | some l => l | none => "None")) ∈
        endpoints st.connections →
      ∃ root ms, (root, ms) ∈ build_nets st.connections ∧
        (p.1 ++ "-" ++ (match p.2 with | some l => l | none => "None")) ∈ ms ∧
        name_net st pin nm
          = (true, ⟨st.components, st.connections, aset st.net_names root nm⟩)) ∧
    ((p.1 ++ "-" ++ (match p.2 with | some l => l | none => "None")) ∉
        endpoints st.connections →
      name_net st pin nm = (false, st)) := by
  obtain ⟨hknd, P, hPinv, hmem⟩ := build_nets_spec st.connections
  obtain ⟨dP, hdP⟩ := hPinv
  constructor
  · intro hin
    obtain ⟨n0, r0, hr0⟩ := reach_exists hdP
      (p.1 ++ "-" ++ (match p.2 with | some l => l | none => "None"))
    have hentry : entryMem (build_nets st.connections) r0
        (p.1 ++ "-" ++ (match p.2 with | some l => l | none => "None")) :=
      (hmem r0 _).mpr ⟨hin, ⟨n0, hr0⟩⟩
    obtain ⟨ms, hmsmem, hpinms⟩ := hentry
    have hsome : ((build_nets st.connections).find? (fun e =>
        decide ((p.1 ++ "-" ++ (match p.2 with | some l => l | none => "None")) ∈ e.2))).isSome
        := by
      rw [List.find?_isSome]
      exact ⟨(r0, ms), hmsmem, by rw [decide_eq_true_eq]; exact hpinms⟩
    obtain ⟨e, he⟩ := Option.isSome_iff_exists.mp hsome
    have hemem := List.mem_of_find?_eq_some he
    have hep : (p.1 ++ "-" ++ (match p.2 with | some l => l | none => "None")) ∈ e.2 := by
      have := List.find?_some he
      rwa [decide_eq_true_eq] at this
    refine ⟨e.1, e.2, hemem, hep, ?_⟩
    unfold name_net
    rw [hp]
    dsimp only
    rw [he]
  · intro hout
    have hnone : ((build_nets st.connections).find? (fun e =>
        decide ((p.1 ++ "-" ++ (match p.2 with | some l => l | none => "None")) ∈ e.2)))
        = none := by
      rw [List.find?_eq_none]
      intro e he
      rw [decide_eq_true_eq]
      intro hpin
      have hentry : entryMem (build_nets st.connections) e.1
          (p.1 ++ "-" ++ (match p.2 with | some l => l | none => "None")) := ⟨e.2, he, hpin⟩
      exact hout ((hmem e.1 _).mp hentry).1
    unfold name_net
    rw [hp]
    dsimp only
    rw [hnone]

theorem merge_pins_outcome {st : St} {from_pin to_pin : String}
    {pf pt : String × Option String}
    (hpf : parse_pin st.components from_pin = some pf)
    (hpt : parse_pin st.components to_pin = some pt) :
    MergeOutcome st pf pt (merge_pins st from_pin to_pin) := by
  unfold merge_pins
  rw [hpf, hpt]
  dsimp only
  by_cases hemp : st.connections.filter
      (matchesFrom (format_pin pf) (pf.1 ++ "-1") pf.2.isNone) = []
  · rw [if_pos hemp]
    have hallfalse : ∀ c ∈ st.connections,
        matchesFrom (format_pin pf) (pf.1 ++ "-1") pf.2.isNone c = false := by
      intro c hc
      rw [List.filter_eq_nil_iff] at hemp
      rw [Bool.eq_false_iff]
      exact hemp c hc
    refine ⟨?_, ?_, ?_, ?_⟩
    · intro _ c hc
      exact matchesFrom_false (hallfalse c hc)
    · intro c hc _
      exact hc
    · intro c hc
      exact Or.inl ⟨hc, hallfalse c hc⟩
    · intro _
      rw [hemp]
      simp
  · rw [if_neg hemp]
    have htodo : ∀ c ∈ st.connections.filter
        (matchesFrom (format_pin pf) (pf.1 ++ "-1") pf.2.isNone),
        matchesFrom (format_pin pf) (pf.1 ++ "-1") pf.2.isNone c = true ∧
          c ∈ st.connections := by
      intro c hc
      obtain ⟨h1, h2⟩ := List.mem_filter.mp hc
      exact ⟨h2, h1⟩
    have hpost := mergeFold_post (format_pin pf) (pf.1 ++ "-1") (format_pin pt) pf.2.isNone
      st.connections (st.connections.filter
        (matchesFrom (format_pin pf) (pf.1 ++ "-1") pf.2.isNone)) (0, st.connections)
      (by
        intro x hx
        by_cases hmf : matchesFrom (format_pin pf) (pf.1 ++ "-1") pf.2.isNone x = true
        · exact Or.inr (Or.inr ⟨hmf, List.mem_filter.mpr ⟨hx, hmf⟩⟩)
        · exact Or.inl ⟨hx, Bool.not_eq_true _ ▸ hmf⟩)
      htodo
    have hframe := mergeFold_frame (format_pin pf) (pf.1 ++ "-1") (format_pin pt) pf.2.isNone
      st.connections (st.connections.filter
        (matchesFrom (format_pin pf) (pf.1 ++ "-1") pf.2.isNone)) (0, st.connections)
      (fun c hc => (htodo c hc).1) (fun x hx _ => hx)
    refine ⟨?_, ?_, ?_, ?_⟩
    · intro hne c hc
      rcases hpost c hc with ⟨_, hmf⟩ | ⟨hrw, _⟩
      · exact matchesFrom_false hmf
      · exact isRewriteOf_ne_fs hne hrw
    · intro c hc hmf
      exact hframe c hc hmf
    · intro c hc
      exact hpost c hc
    · intro hnd
      have hcount := mergeFold_count (format_pin pf) (pf.1 ++ "-1")
        (format_pin pt) (st.connections.filter
          (matchesFrom (format_pin pf) (pf.1 ++ "-1") pf.2.isNone)) (0, st.connections)
        hnd (List.Nodup.filter _ hnd) (fun c hc => (List.mem_filter.mp hc).1)
      dsimp only at hcount
      dsimp only
      omega

theorem delete_component_conns {st : St} {ref : String} {comp : Component}
    (hc : alookup st.components (normalize_ref ref) = some comp) :
    (delete_component st ref).2.connections
      = st.connections.filter (fun c =>
          !(leadsWith c.1 (normalize_ref ref ++ "-") ||
            leadsWith c.2 (normalize_ref ref ++ "-"))) := by
  unfold delete_component
  dsimp only
  rw [hc]

theorem leadsData_append_one (l : List Char) (c : Char) :
    leadsData l (l ++ [c]) = false := by
  induction l with
  | nil => rfl
  | cons a t ih =>
    rw [List.cons_append]
    show (a == a && leadsData t (t ++ [c])) = false
    rw [ih]
    exact Bool.and_false _

theorem leadsWith_self_dash (r : String) : leadsWith r (r ++ "-") = false := by
  unfold leadsWith
  have hd : (r ++ "-").data = r.data ++ ['-'] := by
    rw [String.data_append]
  rw [hd]
  exact leadsData_append_one r.data '-'

theorem takeWhile_neq_append (sp : Char) (r lab : List Char) (hr : sp ∉ r) :
    (r ++ sp :: lab).takeWhile (fun c => c != sp) = r := by
  induction r with
  | nil =>
    rw [List.nil_append, List.takeWhile_cons]
    simp
  | cons a t ih =>
    have ha : a ≠ sp := fun hc => hr (hc ▸ List.mem_cons_self a t)
    have ht : sp ∉ t := fun hc => hr (List.mem_cons_of_mem a hc)
    have hcond : (a != sp) = true := by
      rw [bne_iff_ne]
      exact ha
    rw [List.cons_append, List.takeWhile_cons, hcond]
    simp only [if_true]
    rw [ih ht]

theorem dropWhile_neq_append (sp : Char) (r lab : List Char) (hr : sp ∉ r) :
    (r ++ sp :: lab).dropWhile (fun c => c != sp) = sp :: lab := by
  induction r with
  | nil =>
    rw [List.nil_append, List.dropWhile_cons]
    simp
  | cons a t ih =>
    have ha : a ≠ sp := fun hc => hr (hc ▸ List.mem_cons_self a t)
    have ht : sp ∉ t := fun hc => hr (List.mem_cons_of_mem a hc)
    have hcond : (a != sp) = true := by
      rw [bne_iff_ne]
      exact ha
    rw [List.cons_append, List.dropWhile_cons, hcond]
    simp only [if_true]
    exact ih ht

theorem contains_append_cons (r lab : List Char) (sp : Char) :
    (r ++ sp :: lab).contains sp = true := by
  have hmem : sp ∈ r ++ sp :: lab := List.mem_append.mpr (Or.inr (List.mem_cons_self sp lab))
  exact List.elem_eq_true_of_mem hmem

theorem parse_pin_compound (comps : List (String × Component)) (t : String) (r lab : List Char)
    (ht : canonTok t.data = t.data) (hsplit : t.data = r ++ '-' :: lab) (hr : '-' ∉ r)
    (h1 : isSingle comps t = false)
    (h2 : isSingle comps (normalize_ref (String.mk r)) = false) :
    parse_pin comps t = some (normalize_ref (String.mk r),
      some (if String.mk (upStr (stripStr lab)) = "TAB" then "TAB"
        else String.mk (stripStr lab))) := by
  unfold parse_pin
  dsimp only
  rw [ht]
  have hmk : String.mk t.data = t := by
    cases t
    rfl
  rw [hmk, h1]
  simp only [Bool.false_eq_true, if_false]
  rw [hsplit]
  rw [contains_append_cons r lab '-']
  simp only [if_true]
  rw [takeWhile_neq_append '-' r lab hr, dropWhile_neq_append '-' r lab hr]
  dsimp only [List.drop_succ_cons, List.drop_zero]
  rw [h2]
  simp only [Bool.false_eq_true, if_false]


theorem string_data_ext {s t : String} (h : s.data = t.data) : s = t := by
  cases s
  cases t
  exact congrArg String.mk h

theorem dash_none_append (r : String) : r ++ "-" ++ "None" = r ++ "-None" := by
  apply string_data_ext
  rw [String.data_append, String.data_append, String.data_append, List.append_assoc]
  exact congrArg (r.data ++ ·) (by decide)

/-- Claim C1 (corrected): a state reachable through the mutators can hold a
self-loop pair: adding a connection from a pin to itself stores the pair
(R01-1, R01-1), against the claimed invariant. -/
theorem claim_C1_counterexample :
    Reachable (add_connection ⟨[], [], []⟩ "R1-1" "R1-1").2 ∧
    ("R01-1", "R01-1") ∈ (add_connection ⟨[], [], []⟩ "R1-1" "R1-1").2.connections :=
  ⟨Reachable.addConn ⟨[], [], []⟩ "R1-1" "R1-1" Reachable.init, by decide⟩

/-- Claim C1 (amended): every reachable Connection Store state holds no two
entries that are permutations of the same pair; delete_connection, merge_pins
and delete_pin_connections never introduce a self-loop, and add_connection
persists a self-loop exactly when its two arguments resolve to the same
canonical pin string. -/
theorem claim_C1_amended (s : St) (h : Reachable s) : StoreInvariant s :=
  ⟨fun _ _ h1 h2 => reachable_no_perm h h1 h2,
    fun _ _ hs => merge_pins_slf hs,
    fun _ _ hs => delete_connection_slf hs,
    fun _ hs => delete_pin_connections_slf hs,
    fun _ _ _ _ hp1 hp2 hne hs => add_connection_slf hp1 hp2 hne hs,
    fun _ _ _ _ hp1 hp2 heq habs => add_connection_self_loop hp1 hp2 heq habs⟩

/-- Claim C1 witness: the invariant instantiated at the empty project. -/
theorem claim_C1_witness : StoreInvariant ⟨[], [], []⟩ :=
  claim_C1_amended ⟨[], [], []⟩ Reachable.init

/-- Claim C2 (confirmed): build_nets partitions the endpoints of the stored
pairs: members of every net are endpoints, every endpoint lies in some net,
and a pin shared by two returned nets forces them to be the same net. -/
theorem claim_C2_partition (conns : List (String × String)) :
    (∀ e ∈ build_nets conns, ∀ q ∈ e.2, q ∈ endpoints conns) ∧
    (∀ q ∈ endpoints conns, ∃ e ∈ build_nets conns, q ∈ e.2) ∧
    (∀ e1 ∈ build_nets conns, ∀ e2 ∈ build_nets conns,
      ∀ q : String, q ∈ e1.2 → q ∈ e2.2 → e1 = e2) := by
  obtain ⟨hknd, P, ⟨d, hd⟩, hmem⟩ := build_nets_spec conns
  refine ⟨?_, ?_, ?_⟩
  · intro e he q hq
    exact ((hmem e.1 q).mp ⟨e.2, he, hq⟩).1
  · intro q hq
    obtain ⟨n, r, hR⟩ := reach_exists hd q
    obtain ⟨ms, hms, hqms⟩ := (hmem r q).mpr ⟨hq, n, hR⟩
    exact ⟨(r, ms), hms, hqms⟩
  · intro e1 he1 e2 he2 q hq1 hq2
    have h1 := ((hmem e1.1 q).mp ⟨e1.2, he1, hq1⟩).2
    have h2 := ((hmem e2.1 q).mp ⟨e2.2, he2, hq2⟩).2
    have hkey : e1.1 = e2.1 := reach_det h1 h2
    have he2a : (e1.1, e2.2) ∈ build_nets conns := by
      rw [hkey]
      exact he2
    have hval : e1.2 = e2.2 := keysNodup_mem_eq hknd he1 he2a
    exact Prod.ext_iff.mpr ⟨hkey, hval⟩

/-- Claim C2 witness: the partition instantiated on one stored pair places the
endpoint A-1 in a net. -/
theorem claim_C2_witness : ∃ e ∈ build_nets [("A-1", "B-1")], "A-1" ∈ e.2 :=
  (claim_C2_partition [("A-1", "B-1")]).2.1 "A-1" (by decide)

/-- Claim C3 (corrected): in the two-pair session, removing A-1~B-1 leaves no
net containing A-1 at all; the claimed singleton net for A-1 does not appear.
The premise of the claim holds: before the removal the three pins form one
net. -/
theorem claim_C3_counterexample :
    c3_st2.connections = [("A-1", "B-1"), ("B-1", "C-1")] ∧
    build_nets c3_st2.connections = [("C-1", ["A-1", "B-1", "C-1"])] ∧
    (delete_connection c3_st2 "A-1" "B-1").1 = true ∧
    (¬ ∃ e ∈ build_nets c3_st3.connections, "A-1" ∈ e.2) := by
  refine ⟨by decide, by decide, by decide, by decide⟩

/-- Claim C3 (amended): after removing A-1~B-1, the store holds exactly
B-1~C-1, build_nets returns the single net with members B-1 and C-1, and A-1,
now edgeless, appears in no net. -/
theorem claim_C3_amended :
    c3_st3.connections = [("B-1", "C-1")] ∧
    build_nets c3_st3.connections = [("C-1", ["B-1", "C-1"])] ∧
    (∀ e ∈ build_nets c3_st3.connections, "A-1" ∉ e.2) := by
  refine ⟨by decide, by decide, by decide⟩

/-- Claim C4 (corrected, amended part): name_net locates the net of a
compound-labelled pin by membership of its ref-label form and succeeds exactly
when that form is an endpoint, failing with the registry unchanged otherwise;
a single-pin pin is looked up as ref-None and hence fails even when connected.
The second conjunct shows a successful naming on a concrete session. -/
theorem claim_C4_amended :
    (∀ (st : St) (pin nm : String), NameNetContract st pin nm) ∧
    name_net c4_st "R1-1" "NETX"
      = (true, ⟨c4_st.components, c4_st.connections, [("R01-1", "NETX")]⟩) := by
  constructor
  · intro st pin nm
    constructor
    · intro r lab hp
      exact name_net_spec hp
    · intro r hp hout
      apply (name_net_spec hp).2
      rw [dash_none_append r]
      exact hout
  · decide

/-- Claim C4 witness: the contract instantiated on the GND session. -/
theorem claim_C4_witness : NameNetContract c4_st "GND" "PWR" :=
  claim_C4_amended.1 c4_st "GND" "PWR"

/-- Claim C4 counterexample: the single-pin GND is connected, yet naming its
net fails with the registry unchanged, refuting that failure happens exactly
when the pin has no connections. -/
theorem claim_C4_counterexample :
    (∃ c ∈ c4_st.connections, c.1 = "GND" ∨ c.2 = "GND") ∧
    parse_pin c4_st.components "GND" = some ("GND", none) ∧
    name_net c4_st "GND" "PWR" = (false, c4_st) := by
  refine ⟨by decide, by decide, by decide⟩

/-- Claim C5 (amended): merge_pins removes the source pin from the store when
the target differs from it, keeps every non-referencing pair, leaves only
untouched originals and non-self-loop rewrites (the rewrite replaces both a
source-pin endpoint and an endpoint equal to its ref-1 spelling, the latter
whether or not the source is single-pin), and the reported count accounts
exactly for the pairs inserted. -/
theorem claim_C5_amended (st : St) (from_pin to_pin : String)
    (pf pt : String × Option String)
    (hpf : parse_pin st.components from_pin = some pf)
    (hpt : parse_pin st.components to_pin = some pt) :
    MergeOutcome st pf pt (merge_pins st from_pin to_pin) :=
  merge_pins_outcome hpf hpt

/-- Claim C5 witness: the contract instantiated on merging R01-2 into X-1. -/
theorem claim_C5_witness :
    MergeOutcome c5_st ("R01", some "2") ("X", some "1") (merge_pins c5_st "R1-2" "X-1") :=
  claim_C5_amended c5_st "R1-2" "X-1" ("R01", some "2") ("X", some "1")
    (by decide) (by decide)

/-- Claim C5 counterexample: merging R01-2 into X-1 on the single pair
(R01-1, R01-2) rewrites both endpoints, because the unguarded ref-1 alias test
also replaces R01-1; the result collapses to a self-loop and is discarded, so
the pair (R01-1, X-1) promised by the claim is never stored and the reported
count is zero instead of one. -/
theorem claim_C5_counterexample :
    c5_st.connections = [("R01-1", "R01-2")] ∧
    parse_pin c5_st.components "R1-2" = some ("R01", some "2") ∧
    parse_pin c5_st.components "X-1" = some ("X", some "1") ∧
    (merge_pins c5_st "R1-2" "X-1").2.2.connections = [] ∧
    (merge_pins c5_st "R1-2" "X-1").2.1 = 0 ∧
    ("R01-1", "X-1") ∉ (merge_pins c5_st "R1-2" "X-1").2.2.connections := by
  refine ⟨by decide, by decide, by decide, by decide, by decide, by decide⟩

/-- Claim C6 (corrected, amended part): on inputs whose uppercased stripped
form is an alphabetic run followed by a digit run, normalize_ref zero-pads a
value below ten to two digits after the run, leaves values of ten or more
as-is, and returns the uppercased stripped input when either run is absent. -/
theorem claim_C6_amended (x : String) (A D : List Char)
    (hshape : canonTok x.data = A ++ D)
    (hA : ∀ c ∈ A, pyIsAlpha c = true) (hD : ∀ c ∈ D, pyIsDigit c = true) :
    (A ≠ [] → D ≠ [] → digitsVal D < 10 →
      normalize_ref x = String.mk (A ++ pad2 (digitsVal D))) ∧
    (A ≠ [] → D ≠ [] → 10 ≤ digitsVal D → normalize_ref x = String.mk (canonTok x.data)) ∧
    ((A = [] ∨ D = []) → normalize_ref x = String.mk (canonTok x.data)) :=
  normalize_ref_runs x A D hshape hA hD

/-- Claim C6 witness: the padding rule applied to D4 yields D04. -/
theorem claim_C6_witness : normalize_ref "D4" = "D04" := by
  have h := (claim_C6_amended "D4" ['D'] ['4'] (by decide) (by decide) (by decide)).1
    (by decide) (by decide) (by decide)
  rw [h]
  decide

/-- Claim C6 counterexample: the input 4D has no leading alphabetic run, so by
the claim it should come back unchanged, but normalize_ref gathers all letters
and all digits and returns D04. -/
theorem claim_C6_counterexample :
    normalize_ref "4D" = "D04" ∧ normalize_ref "4D" ≠ "4D" := by
  refine ⟨by decide, by decide⟩

/-- Claim C7 (confirmed): get_remaining_pins returns a row for ref, pin n and
value exactly when some component entry for ref has more than one pin, passes
the filter, carries that value, and its compound form ref-n with 1 ≤ n ≤ pins
is no endpoint of any stored pair; on the concrete three-pin transistor with
only pin 1 connected, pins 2 and 3 are reported. -/
theorem claim_C7_remaining :
    (∀ (st : St) (filt : Option String) (ref : String) (n : Nat) (v : String),
      (ref, n, v) ∈ get_remaining_pins st filt ↔
        ∃ comp : Component, (ref, comp) ∈ st.components ∧ 1 < comp.pins ∧
          passFilter filt ref = true ∧ comp.value = v ∧ 1 ≤ n ∧ n ≤ comp.pins ∧
          (ref ++ "-" ++ toString n) ∉ endpoints st.connections) ∧
    get_remaining_pins c7_st (some "Q") = [("Q01", 2, "?"), ("Q01", 3, "?")] :=
  ⟨fun _ _ _ _ _ => mem_get_remaining_pins, by decide⟩

/-- Claim C7 witness: pin 2 of the transistor is reported remaining. -/
theorem claim_C7_witness : ("Q01", 2, "?") ∈ get_remaining_pins c7_st (some "Q") := by
  rw [claim_C7_remaining.2]
  decide

/-- Claim C8 (confirmed): normalize_ref is idempotent on every input string. -/
theorem claim_C8_idempotent (s : String) :
    normalize_ref (normalize_ref s) = normalize_ref s :=
  normalize_ref_idem s

/-- Claim C8 witness: idempotence at a concrete input. -/
theorem claim_C8_witness : normalize_ref (normalize_ref "d4") = normalize_ref "d4" :=
  claim_C8_idempotent "d4"

/-- Claim C9 (corrected, amended part): delete_component removes exactly the
pairs having an endpoint that starts with the normalized ref and a dash; a pair
none of whose endpoints has that shape survives, in particular one referencing
the component only through its bare ref, since the bare ref never starts with
ref-dash. -/
theorem claim_C9_amended (st : St) (ref : String) : DeleteComponentContract st ref := by
  intro comp hc
  have hconns := delete_component_conns hc
  have hmem : ∀ c : String × String,
      c ∈ (delete_component st ref).2.connections ↔
        c ∈ st.connections ∧ leadsWith c.1 (normalize_ref ref ++ "-") = false ∧
          leadsWith c.2 (normalize_ref ref ++ "-") = false := by
    intro c
    rw [hconns, List.mem_filter]
    constructor
    · rintro ⟨h1, h2⟩
      rw [Bool.not_eq_true'] at h2
      rw [Bool.or_eq_false_iff] at h2
      exact ⟨h1, h2⟩
    · rintro ⟨h1, h2, h3⟩
      refine ⟨h1, ?_⟩
      rw [Bool.not_eq_true', Bool.or_eq_false_iff]
      exact ⟨h2, h3⟩
  refine ⟨fun c hcm => ⟨fun hin => ((hmem c).mp hin).2,
      fun hb => (hmem c).mpr ⟨hcm, hb.1, hb.2⟩⟩, ?_, ?_⟩
  · intro c hcm h1 h2
    refine (hmem c).mpr ⟨hcm, ?_, h2⟩
    rw [h1]
    exact leadsWith_self_dash _
  · intro c hcm h1 h2
    refine (hmem c).mpr ⟨hcm, h2, ?_⟩
    rw [h1]
    exact leadsWith_self_dash _

/-- Claim C9 witness: the contract instantiated on the mixed-pair session. -/
theorem claim_C9_witness : DeleteComponentContract c9_st "GND" :=
  claim_C9_amended c9_st "GND"

/-- Claim C9 counterexample: through recorded commands the store reaches the
pair (GND, GND-2) whose first endpoint is the bare ref itself; deleting the
component GND removes that pair all the same (its other endpoint starts with
GND-dash), refuting that every pair with a bare-ref endpoint is left
unchanged. -/
theorem claim_C9_counterexample :
    Reachable c9_st ∧
    c9_st.connections = [("GND", "GND-2")] ∧
    alookup c9_st.components "GND" = some ⟨1, "?"⟩ ∧
    (delete_component c9_st "GND").2.connections = [] := by
  refine ⟨?_, by decide, by decide, by decide⟩
  exact Reachable.mergeP _ "X-1" "GND"
    (Reachable.editPins _ "GND" 1
      (Reachable.addConn _ "GND-2" "X-1"
        (Reachable.addComp ⟨[], [], []⟩ "GND" (some 2) "?" Reachable.init)))

/-- Claim C10 (confirmed): parse_pin accepts any dash-separated compound token
whose whole form and ref are not registered single-pin, producing the
normalized ref and the label with no check against the pin count; in
particular pin 7 of the two-pin resistor R01 parses and add_connection stores
a connection on it. -/
theorem claim_C10_label_unchecked :
    (∀ (comps : List (String × Component)) (t : String) (r lab : List Char),
      canonTok t.data = t.data → t.data = r ++ '-' :: lab → '-' ∉ r →
      isSingle comps t = false → isSingle comps (normalize_ref (String.mk r)) = false →
      parse_pin comps t = some (normalize_ref (String.mk r),
        some (if String.mk (upStr (stripStr lab)) = "TAB" then "TAB"
          else String.mk (stripStr lab)))) ∧
    parse_pin c10_st.components "R1-7" = some ("R01", some "7") ∧
    (add_connection c10_st "R1-7" "C1-1").1 = true ∧
    ("C01-1", "R01-7") ∈ (add_connection c10_st "R1-7" "C1-1").2.connections :=
  ⟨fun comps t r lab h1 h2 h3 h4 h5 => parse_pin_compound comps t r lab h1 h2 h3 h4 h5,
    by decide, by decide, by decide⟩

/-- Claim C10 witness: the acceptance lemma instantiated on the token A-9 with
no components registered. -/
theorem claim_C10_witness : parse_pin [] "A-9" = some ("A", some "9") := by
  have h := claim_C10_label_unchecked.1 [] "A-9" ['A'] ['9']
    (by decide) (by decide) (by decide) (by decide) (by decide)
  rw [h]
  decide

end PCB

